import Mathlib

set_option linter.unusedVariables false
set_option linter.unnecessarySeqFocus false

/-! Shallow embedding of the single-instrument limit order matching engine:
    the types of src/common/types.hpp, the book of src/engine/OrderBook.cpp
    and the dispatcher worker step of src/engine/MatchingEngine.cpp.
    The uint64_t fields are modelled as Nat: every subtraction performed by
    the source subtracts a quantity bounded by the minuend (tradeQty is a
    minimum of the two remaining quantities, and the volume debits are
    covered by the volume invariant), so no wraparound arises on the states
    the claims quantify over.  Timestamps are dropped; no claim mentions
    them.  The id index (orderLookup) is an unordered map and is modelled
    as a function from ids to optional locators; the list iterator stored
    in the C++ locator is replaced by removal directed by the order id,
    which coincides with erasing through the iterator on every state where
    the index is accurate. -/

inductive Side where
  | Buy
  | Sell
deriving DecidableEq, Repr

structure Order where
  id : Nat
  side : Side
  price : Nat
  initialQuantity : Nat
  remainingQuantity : Nat
deriving DecidableEq, Repr

def Order.isFilled (o : Order) : Bool := o.remainingQuantity == 0

structure Trade where
  price : Nat
  quantity : Nat
  makerOrderId : Nat
  takerOrderId : Nat
deriving DecidableEq, Repr

structure LevelInfo where
  price : Nat
  quantity : Nat
deriving DecidableEq, Repr

structure Level where
  price : Nat
  totalVolume : Nat
  orders : List Order
deriving DecidableEq, Repr

structure OrderLocation where
  side : Side
  price : Nat
deriving DecidableEq, Repr

def Lookup : Type := Nat → Option OrderLocation

def emptyLookup : Lookup := fun _ => none

def insertLookup (lk : Lookup) (oid : Nat) (loc : OrderLocation) : Lookup :=
  fun x => if x = oid then some loc else lk x

def eraseLookup (lk : Lookup) (oid : Nat) : Lookup :=
  fun x => if x = oid then none else lk x

structure OrderBook where
  bids : List Level
  asks : List Level
  orderLookup : Lookup

def emptyBook : OrderBook := { bids := [], asks := [], orderLookup := emptyLookup }

/-- The price cross check of OrderBook.cpp line 75. -/
def priceMatch (incoming : Order) (levelPrice : Nat) : Bool :=
  match incoming.side with
  | Side.Buy => levelPrice ≤ incoming.price
  | Side.Sell => incoming.price ≤ levelPrice

structure LoopRes where
  incoming : Order
  orders : List Order
  totalVolume : Nat
  lookup : Lookup
  trades : List Trade

/-- The inner while loop of OrderBook::matchAgainstBook (lines 78 to 102):
    walk the FIFO of one level, trading against each resting maker until
    the incoming order is filled or the FIFO is exhausted.  Fully
    consumed makers are removed from the FIFO and erased from the index;
    a partially consumed maker stays in place. -/
def matchAtLevel (incoming : Order) (levelPrice : Nat) (orders : List Order)
    (totalVolume : Nat) (lk : Lookup) : LoopRes :=
  match orders with
  | [] => ⟨incoming, [], totalVolume, lk, []⟩
  | bookOrder :: rest =>
    if incoming.isFilled then ⟨incoming, bookOrder :: rest, totalVolume, lk, []⟩
    else
      let tradeQty := min incoming.remainingQuantity bookOrder.remainingQuantity
      let t : Trade := ⟨levelPrice, tradeQty, bookOrder.id, incoming.id⟩
      let incoming1 : Order :=
        { incoming with remainingQuantity := incoming.remainingQuantity - tradeQty }
      let bookOrder1 : Order :=
        { bookOrder with remainingQuantity := bookOrder.remainingQuantity - tradeQty }
      let tv1 := totalVolume - tradeQty
      if bookOrder1.isFilled then
        let r := matchAtLevel incoming1 levelPrice rest tv1 (eraseLookup lk bookOrder.id)
        ⟨r.incoming, r.orders, r.totalVolume, r.lookup, t :: r.trades⟩
      else
        let r := matchAtLevel incoming1 levelPrice rest tv1 lk
        ⟨r.incoming, bookOrder1 :: r.orders, r.totalVolume, r.lookup, t :: r.trades⟩

structure BookRes where
  incoming : Order
  levels : List Level
  lookup : Lookup
  trades : List Trade

/-- The outer while loop of OrderBook::matchAgainstBook (lines 70 to 109):
    sweep the opposite side best price first while the incoming price
    crosses the level, removing levels whose FIFO empties. -/
def matchAgainstBook (incoming : Order) (book : List Level) (lk : Lookup) : BookRes :=
  match book with
  | [] => ⟨incoming, [], lk, []⟩
  | lvl :: rest =>
    if incoming.isFilled then ⟨incoming, lvl :: rest, lk, []⟩
    else if priceMatch incoming lvl.price then
      let r1 := matchAtLevel incoming lvl.price lvl.orders lvl.totalVolume lk
      let r2 := matchAgainstBook r1.incoming rest r1.lookup
      if r1.orders.isEmpty then
        ⟨r2.incoming, r2.levels, r2.lookup, r1.trades ++ r2.trades⟩
      else
        ⟨r2.incoming,
         { price := lvl.price, totalVolume := r1.totalVolume, orders := r1.orders } :: r2.levels,
         r2.lookup, r1.trades ++ r2.trades⟩
    else ⟨incoming, lvl :: rest, lk, []⟩

/-- Ordering of the bids map of OrderBook.hpp line 41: highest price first. -/
def bidsBefore (p q : Nat) : Bool := q < p

/-- Ordering of the asks map of OrderBook.hpp line 43: lowest price first. -/
def asksBefore (p q : Nat) : Bool := p < q

/-- Insertion into one price-sorted side, the effect of the map indexing of
    OrderBook::addToBook (lines 112 to 126): find or create the level at the
    order price, append the order at the FIFO tail, credit totalVolume. -/
def insertIntoSide (before : Nat → Nat → Bool) (o : Order) : List Level → List Level
  | [] => [⟨o.price, o.remainingQuantity, [o]⟩]
  | lvl :: rest =>
    if lvl.price = o.price then
      ⟨lvl.price, lvl.totalVolume + o.remainingQuantity, lvl.orders ++ [o]⟩ :: rest
    else if before o.price lvl.price then
      ⟨o.price, o.remainingQuantity, [o]⟩ :: lvl :: rest
    else
      lvl :: insertIntoSide before o rest

/-- OrderBook::addToBook: rest the order on its own side and record its
    locator in the id index. -/
def addToBook (o : Order) (before : Nat → Nat → Bool) (side : List Level) (lk : Lookup) :
    List Level × Lookup :=
  (insertIntoSide before o side, insertLookup lk o.id ⟨o.side, o.price⟩)

/-- OrderBook::addOrder (lines 8 to 27): reject a duplicate id, match
    against the opposite side, rest the residual if not filled. -/
def addOrder (b : OrderBook) (o : Order) : OrderBook × List Trade :=
  if (b.orderLookup o.id).isSome then (b, [])
  else
    match o.side with
    | Side.Buy =>
      let r := matchAgainstBook o b.asks b.orderLookup
      if r.incoming.isFilled then
        ({ bids := b.bids, asks := r.levels, orderLookup := r.lookup }, r.trades)
      else
        let p := addToBook r.incoming bidsBefore b.bids r.lookup
        ({ bids := p.1, asks := r.levels, orderLookup := p.2 }, r.trades)
    | Side.Sell =>
      let r := matchAgainstBook o b.bids b.orderLookup
      if r.incoming.isFilled then
        ({ bids := r.levels, asks := b.asks, orderLookup := r.lookup }, r.trades)
      else
        let p := addToBook r.incoming asksBefore b.asks r.lookup
        ({ bids := r.levels, asks := p.1, orderLookup := p.2 }, r.trades)

/-- Remaining quantity of the first order with the given id, if any. -/
def findRemById : List Order → Nat → Option Nat
  | [], _ => none
  | o :: rest, oid => if o.id = oid then some o.remainingQuantity else findRemById rest oid

/-- Remove the first order with the given id. -/
def removeFirstById : List Order → Nat → List Order
  | [], _ => []
  | o :: rest, oid => if o.id = oid then rest else o :: removeFirstById rest oid

/-- The level surgery of OrderBook::cancelOrder (lines 39 to 40): debit the
    volume by the remaining quantity of the located order and unlink it. -/
def cancelInLevel (lvl : Level) (oid : Nat) : Level :=
  match findRemById lvl.orders oid with
  | none => lvl
  | some q =>
      { price := lvl.price, totalVolume := lvl.totalVolume - q,
        orders := removeFirstById lvl.orders oid }

/-- Find the level at the recorded price on one side and cancel there,
    erasing the level if its FIFO empties (lines 37 to 53). -/
def cancelInSide : List Level → Nat → Nat → List Level
  | [], _, _ => []
  | lvl :: rest, price, oid =>
    if lvl.price = price then
      let lvl1 := cancelInLevel lvl oid
      if lvl1.orders.isEmpty then rest else lvl1 :: rest
    else lvl :: cancelInSide rest price oid

/-- OrderBook::cancelOrder (lines 29 to 58). -/
def cancelOrder (b : OrderBook) (oid : Nat) : OrderBook × Bool :=
  match b.orderLookup oid with
  | none => (b, false)
  | some loc =>
      let b1 :=
        match loc.side with
        | Side.Buy => { b with bids := cancelInSide b.bids loc.price oid }
        | Side.Sell => { b with asks := cancelInSide b.asks loc.price oid }
      ({ b1 with orderLookup := eraseLookup b1.orderLookup oid }, true)

/-- OrderBook::getBids (lines 128 to 134). -/
def getBids (b : OrderBook) : List LevelInfo :=
  b.bids.map (fun l => ⟨l.price, l.totalVolume⟩)

/-- OrderBook::getAsks (lines 136 to 142). -/
def getAsks (b : OrderBook) : List LevelInfo :=
  b.asks.map (fun l => ⟨l.price, l.totalVolume⟩)

structure StepRes where
  tradeEvent : Option (List Trade)
  bookUpdateEvent : Bool
deriving DecidableEq

/-- One iteration of the worker loop of MatchingEngine::run for an Add
    command (lines 71 to 90).  addOrder receives the order by value, so the
    isFilled test on line 79 reads the queued copy, whose remaining
    quantity the matching never changes. -/
def processAdd (b : OrderBook) (o : Order) : OrderBook × StepRes :=
  let r := addOrder b o
  let tradeEv := if r.2.isEmpty then none else some r.2
  let changed := (!r.2.isEmpty) || (!o.isFilled)
  (r.1, ⟨tradeEv, changed⟩)

/-- One iteration of the worker loop for a Cancel command (lines 82 to 90). -/
def processCancel (b : OrderBook) (oid : Nat) : OrderBook × StepRes :=
  let r := cancelOrder b oid
  (r.1, ⟨none, r.2⟩)

/-- Book states reachable from the empty book by add and cancel. -/
inductive Reachable : OrderBook → Prop where
  | empty : Reachable emptyBook
  | add (b : OrderBook) (o : Order) : Reachable b → Reachable (addOrder b o).1
  | cancel (b : OrderBook) (oid : Nat) : Reachable b → Reachable (cancelOrder b oid).1

def sumRem (os : List Order) : Nat := (os.map Order.remainingQuantity).sum

def idsOf (os : List Order) : List Nat := os.map Order.id

def sideIds (side : List Level) : List Nat := (side.map (fun l => idsOf l.orders)).flatten

def allIds (b : OrderBook) : List Nat := sideIds b.bids ++ sideIds b.asks

def tradesQtySum (ts : List Trade) : Nat := (ts.map Trade.quantity).sum

def mkOrder (oid : Nat) (s : Side) (p q : Nat) : Order := ⟨oid, s, p, q, q⟩

example :
    (addOrder emptyBook (mkOrder 1 Side.Sell 100 2)).2 = [] := by decide

example :
    getAsks (addOrder (addOrder emptyBook (mkOrder 1 Side.Sell 100 2)).1
      (mkOrder 2 Side.Sell 100 3)).1 = [⟨100, 5⟩] := by decide

/-! Basic unfolding lemmas. -/

theorem matchAgainstBook_filled (o : Order) (side : List Level) (lk : Lookup)
    (h : o.isFilled = true) : matchAgainstBook o side lk = ⟨o, side, lk, []⟩ := by
  cases side <;> simp [matchAgainstBook, h]

theorem addOrder_dup (b : OrderBook) (o : Order)
    (h : (b.orderLookup o.id).isSome = true) : addOrder b o = (b, []) := by
  simp [addOrder, h]

/-- C2: price-time-priority sweep, seed scenario 4 of the spec: after three
    resting sells (id 1 at 100 for 2, id 2 at 100 for 3, id 3 at 101 for 4),
    adding Buy id 4 at 101 for 8 yields exactly the trades
    (100,2,1,4), (100,3,2,4), (101,3,3,4) in that order, and leaves
    asks = [(101,1)] and bids = []. -/
theorem sweep_scenario_c2 :
    (addOrder (addOrder (addOrder (addOrder emptyBook
        (mkOrder 1 Side.Sell 100 2)).1
        (mkOrder 2 Side.Sell 100 3)).1
        (mkOrder 3 Side.Sell 101 4)).1
        (mkOrder 4 Side.Buy 101 8)).2
      = [⟨100, 2, 1, 4⟩, ⟨100, 3, 2, 4⟩, ⟨101, 3, 3, 4⟩] ∧
    getAsks (addOrder (addOrder (addOrder (addOrder emptyBook
        (mkOrder 1 Side.Sell 100 2)).1
        (mkOrder 2 Side.Sell 100 3)).1
        (mkOrder 3 Side.Sell 101 4)).1
        (mkOrder 4 Side.Buy 101 8)).1 = [⟨101, 1⟩] ∧
    getBids (addOrder (addOrder (addOrder (addOrder emptyBook
        (mkOrder 1 Side.Sell 100 2)).1
        (mkOrder 2 Side.Sell 100 3)).1
        (mkOrder 3 Side.Sell 101 4)).1
        (mkOrder 4 Side.Buy 101 8)).1 = [] := by
  exact ⟨by decide, by decide, by decide⟩

/-- C3: the worker loop fires the book-update callback on a duplicate-id Add
    command.  addOrder takes the order by value, so the isFilled test of
    MatchingEngine.cpp line 79 reads the unmutated queued copy and reports
    the order as resting even though the book rejected it: at the input
    below the second Add produces no trade and leaves the book unchanged,
    yet bookChanged is set and the book-update callback fires. -/
theorem dup_add_fires_book_update :
    (addOrder (addOrder emptyBook (mkOrder 1 Side.Buy 100 5)).1
        (mkOrder 1 Side.Buy 101 7)).2 = [] ∧
    (processAdd (addOrder emptyBook (mkOrder 1 Side.Buy 100 5)).1
        (mkOrder 1 Side.Buy 101 7)).1
      = (addOrder emptyBook (mkOrder 1 Side.Buy 100 5)).1 ∧
    (processAdd (addOrder emptyBook (mkOrder 1 Side.Buy 100 5)).1
        (mkOrder 1 Side.Buy 101 7)).2.tradeEvent = none ∧
    (processAdd (addOrder emptyBook (mkOrder 1 Side.Buy 100 5)).1
        (mkOrder 1 Side.Buy 101 7)).2.bookUpdateEvent = true := by
  exact ⟨rfl, rfl, rfl, rfl⟩

/-- C4: an add whose id is already a key of the order index is a no-op: it
    returns the empty trade list and leaves the whole book, both sides and
    the index included, exactly unchanged. -/
theorem dup_add_noop (b : OrderBook) (o : Order)
    (h : (b.orderLookup o.id).isSome = true) : addOrder b o = (b, []) := by
  simp [addOrder, h]

theorem dup_add_noop_witness :
    ((addOrder emptyBook (mkOrder 1 Side.Buy 100 5)).1.orderLookup 1).isSome = true ∧
    addOrder (addOrder emptyBook (mkOrder 1 Side.Buy 100 5)).1 (mkOrder 1 Side.Buy 101 7)
      = ((addOrder emptyBook (mkOrder 1 Side.Buy 100 5)).1, []) :=
  ⟨rfl, dup_add_noop (addOrder emptyBook (mkOrder 1 Side.Buy 100 5)).1
    (mkOrder 1 Side.Buy 101 7) rfl⟩

/-- C10: an add of an order with zero remaining quantity and a fresh id is a
    total no-op: the book returns no trades and is unchanged, and the worker
    loop fires neither the trade callback nor the book-update callback. -/
theorem zero_qty_add_noop (b : OrderBook) (o : Order)
    (h0 : o.remainingQuantity = 0) (h1 : b.orderLookup o.id = none) :
    addOrder b o = (b, []) ∧ processAdd b o = (b, ⟨none, false⟩) := by
  have hf : o.isFilled = true := by simp [Order.isFilled, h0]
  have hadd : addOrder b o = (b, []) := by
    cases hs : o.side <;>
      simp [addOrder, h1, hs, matchAgainstBook_filled _ _ _ hf, hf]
  refine ⟨hadd, ?_⟩
  simp [processAdd, hadd, hf]

theorem zero_qty_add_noop_witness :
    (mkOrder 9 Side.Buy 50 0).remainingQuantity = 0 ∧
    emptyBook.orderLookup (mkOrder 9 Side.Buy 50 0).id = none ∧
    (addOrder emptyBook (mkOrder 9 Side.Buy 50 0) = (emptyBook, []) ∧
      processAdd emptyBook (mkOrder 9 Side.Buy 50 0) = (emptyBook, ⟨none, false⟩)) :=
  ⟨rfl, rfl, zero_qty_add_noop emptyBook (mkOrder 9 Side.Buy 50 0) rfl rfl⟩

/-! Arithmetic lemmas for trade conservation. -/

def sumSide (side : List Level) : Nat := (side.map (fun l => sumRem l.orders)).sum

theorem matchAtLevel_inc_sum (o : Order) (p : Nat) (os : List Order) (tv : Nat)
    (lk : Lookup) :
    (matchAtLevel o p os tv lk).incoming.remainingQuantity
        + tradesQtySum (matchAtLevel o p os tv lk).trades
      = o.remainingQuantity := by
  induction os generalizing o tv lk with
  | nil => simp [matchAtLevel, tradesQtySum]
  | cons bookOrder rest ih =>
    by_cases hf : o.isFilled
    · simp [matchAtLevel, hf, tradesQtySum]
    · simp only [matchAtLevel, hf, if_false, Bool.false_eq_true]
      by_cases hb : (⟨bookOrder.id, bookOrder.side, bookOrder.price, bookOrder.initialQuantity,
          bookOrder.remainingQuantity - min o.remainingQuantity bookOrder.remainingQuantity⟩
            : Order).isFilled
      · simp only [hb, if_true, tradesQtySum, List.map_cons, List.sum_cons]
        have := ih { o with remainingQuantity :=
          o.remainingQuantity - min o.remainingQuantity bookOrder.remainingQuantity }
          (tv - min o.remainingQuantity bookOrder.remainingQuantity)
          (eraseLookup lk bookOrder.id)
        simp only [tradesQtySum] at this
        omega
      · simp only [hb, if_false, Bool.false_eq_true, tradesQtySum, List.map_cons, List.sum_cons]
        have := ih { o with remainingQuantity :=
          o.remainingQuantity - min o.remainingQuantity bookOrder.remainingQuantity }
          (tv - min o.remainingQuantity bookOrder.remainingQuantity) lk
        simp only [tradesQtySum] at this
        omega

theorem matchAtLevel_orders_sum (o : Order) (p : Nat) (os : List Order) (tv : Nat)
    (lk : Lookup) :
    sumRem (matchAtLevel o p os tv lk).orders
        + tradesQtySum (matchAtLevel o p os tv lk).trades
      = sumRem os := by
  induction os generalizing o tv lk with
  | nil => simp [matchAtLevel, tradesQtySum]
  | cons bookOrder rest ih =>
    by_cases hf : o.isFilled
    · simp [matchAtLevel, hf, tradesQtySum]
    · simp only [matchAtLevel, hf, if_false, Bool.false_eq_true]
      by_cases hb : (⟨bookOrder.id, bookOrder.side, bookOrder.price, bookOrder.initialQuantity,
          bookOrder.remainingQuantity - min o.remainingQuantity bookOrder.remainingQuantity⟩
            : Order).isFilled
      · simp only [hb, if_true, tradesQtySum, List.map_cons, List.sum_cons]
        have := ih { o with remainingQuantity :=
          o.remainingQuantity - min o.remainingQuantity bookOrder.remainingQuantity }
          (tv - min o.remainingQuantity bookOrder.remainingQuantity)
          (eraseLookup lk bookOrder.id)
        simp only [tradesQtySum] at this
        have hb2 : bookOrder.remainingQuantity
            - min o.remainingQuantity bookOrder.remainingQuantity = 0 := by
          simpa [Order.isFilled] using hb
        simp only [sumRem, List.map_cons, List.sum_cons] at *
        omega
      · simp only [hb, if_false, Bool.false_eq_true, tradesQtySum, List.map_cons, List.sum_cons]
        have := ih { o with remainingQuantity :=
          o.remainingQuantity - min o.remainingQuantity bookOrder.remainingQuantity }
          (tv - min o.remainingQuantity bookOrder.remainingQuantity) lk
        simp only [tradesQtySum] at this
        simp only [sumRem, List.map_cons, List.sum_cons] at *
        omega

theorem tradesQtySum_append (a b : List Trade) :
    tradesQtySum (a ++ b) = tradesQtySum a + tradesQtySum b := by
  simp [tradesQtySum]

theorem matchAgainstBook_inc_sum (o : Order) (side : List Level) (lk : Lookup) :
    (matchAgainstBook o side lk).incoming.remainingQuantity
        + tradesQtySum (matchAgainstBook o side lk).trades
      = o.remainingQuantity := by
  induction side generalizing o lk with
  | nil => simp [matchAgainstBook, tradesQtySum]
  | cons lvl rest ih =>
    by_cases hf : o.isFilled
    · simp [matchAgainstBook, hf, tradesQtySum]
    · by_cases hp : priceMatch o lvl.price
      · simp only [matchAgainstBook, hf, hp, if_true, if_false, Bool.false_eq_true]
        have h1 := matchAtLevel_inc_sum o lvl.price lvl.orders lvl.totalVolume lk
        have h2 := ih (matchAtLevel o lvl.price lvl.orders lvl.totalVolume lk).incoming
          (matchAtLevel o lvl.price lvl.orders lvl.totalVolume lk).lookup
        by_cases hE : (matchAtLevel o lvl.price lvl.orders lvl.totalVolume lk).orders.isEmpty <;>
          simp only [hE, if_true, if_false, Bool.false_eq_true, tradesQtySum_append] <;> omega
      · simp [matchAgainstBook, hf, hp, tradesQtySum]

theorem matchAgainstBook_side_sum (o : Order) (side : List Level) (lk : Lookup) :
    sumSide (matchAgainstBook o side lk).levels
        + tradesQtySum (matchAgainstBook o side lk).trades
      = sumSide side := by
  induction side generalizing o lk with
  | nil => simp [matchAgainstBook, tradesQtySum]
  | cons lvl rest ih =>
    by_cases hf : o.isFilled
    · simp [matchAgainstBook, hf, tradesQtySum]
    · by_cases hp : priceMatch o lvl.price
      · simp only [matchAgainstBook, hf, hp, if_true, if_false, Bool.false_eq_true]
        have h1 := matchAtLevel_orders_sum o lvl.price lvl.orders lvl.totalVolume lk
        have h2 := ih (matchAtLevel o lvl.price lvl.orders lvl.totalVolume lk).incoming
          (matchAtLevel o lvl.price lvl.orders lvl.totalVolume lk).lookup
        by_cases hE : (matchAtLevel o lvl.price lvl.orders lvl.totalVolume lk).orders.isEmpty
        · have hor : (matchAtLevel o lvl.price lvl.orders lvl.totalVolume lk).orders = [] :=
            List.isEmpty_iff.mp hE
          simp only [hE, if_true, tradesQtySum_append, sumSide, List.map_cons, List.sum_cons]
          have hz : sumRem (matchAtLevel o lvl.price lvl.orders lvl.totalVolume lk).orders = 0 := by
            simp [hor, sumRem]
          simp only [sumSide] at h2 ⊢
          omega
        · simp only [hE, if_false, Bool.false_eq_true, tradesQtySum_append, sumSide,
            List.map_cons, List.sum_cons]
          simp only [sumSide] at h2 ⊢
          omega
      · simp [matchAgainstBook, hf, hp, tradesQtySum]

/-- The dispatch of OrderBook::match (lines 60 to 66): a Buy matches against
    the asks, a Sell against the bids. -/
def oppositeLevels (b : OrderBook) (s : Side) : List Level :=
  match s with
  | Side.Buy => b.asks
  | Side.Sell => b.bids

theorem addOrder_trades_eq (b : OrderBook) (o : Order) (h : b.orderLookup o.id = none) :
    (addOrder b o).2 = (matchAgainstBook o (oppositeLevels b o.side) b.orderLookup).trades := by
  cases hs : o.side <;> simp only [addOrder, h, Option.isSome_none, if_false,
    Bool.false_eq_true, hs, oppositeLevels] <;> split <;> rfl

/-- C8: trade conservation.  For any add with a fresh id, the trades
    returned are those of the matching sweep; the incoming order loses
    exactly the traded quantity, the opposite side loses exactly the traded
    quantity, and hence the total decrease in remaining quantity over all
    affected orders is twice the sum of the trade quantities. -/
theorem trade_conservation (b : OrderBook) (o : Order) (h : b.orderLookup o.id = none) :
    (addOrder b o).2 = (matchAgainstBook o (oppositeLevels b o.side) b.orderLookup).trades ∧
    (matchAgainstBook o (oppositeLevels b o.side) b.orderLookup).incoming.remainingQuantity
        + tradesQtySum (addOrder b o).2 = o.remainingQuantity ∧
    sumSide (matchAgainstBook o (oppositeLevels b o.side) b.orderLookup).levels
        + tradesQtySum (addOrder b o).2 = sumSide (oppositeLevels b o.side) ∧
    (o.remainingQuantity
        - (matchAgainstBook o (oppositeLevels b o.side) b.orderLookup).incoming.remainingQuantity)
      + (sumSide (oppositeLevels b o.side)
        - sumSide (matchAgainstBook o (oppositeLevels b o.side) b.orderLookup).levels)
      = 2 * tradesQtySum (addOrder b o).2 := by
  have ht := addOrder_trades_eq b o h
  have h1 := matchAgainstBook_inc_sum o (oppositeLevels b o.side) b.orderLookup
  have h2 := matchAgainstBook_side_sum o (oppositeLevels b o.side) b.orderLookup
  refine ⟨ht, ?_, ?_, ?_⟩ <;> rw [ht] <;> omega

def seedAsksBook : OrderBook :=
  (addOrder (addOrder (addOrder emptyBook
    (mkOrder 1 Side.Sell 100 2)).1
    (mkOrder 2 Side.Sell 100 3)).1
    (mkOrder 3 Side.Sell 101 4)).1

theorem trade_conservation_witness :
    seedAsksBook.orderLookup (mkOrder 4 Side.Buy 101 8).id = none ∧
    ((mkOrder 4 Side.Buy 101 8).remainingQuantity
        - (matchAgainstBook (mkOrder 4 Side.Buy 101 8)
            (oppositeLevels seedAsksBook (mkOrder 4 Side.Buy 101 8).side)
            seedAsksBook.orderLookup).incoming.remainingQuantity)
      + (sumSide (oppositeLevels seedAsksBook (mkOrder 4 Side.Buy 101 8).side)
        - sumSide (matchAgainstBook (mkOrder 4 Side.Buy 101 8)
            (oppositeLevels seedAsksBook (mkOrder 4 Side.Buy 101 8).side)
            seedAsksBook.orderLookup).levels)
      = 2 * tradesQtySum (addOrder seedAsksBook (mkOrder 4 Side.Buy 101 8)).2 :=
  ⟨rfl, (trade_conservation seedAsksBook (mkOrder 4 Side.Buy 101 8) rfl).2.2.2⟩

/-! Trade attribution and price monotonicity. -/

theorem matchAtLevel_inc_fields (o : Order) (p : Nat) (os : List Order) (tv : Nat)
    (lk : Lookup) :
    (matchAtLevel o p os tv lk).incoming.id = o.id ∧
    (matchAtLevel o p os tv lk).incoming.side = o.side ∧
    (matchAtLevel o p os tv lk).incoming.price = o.price := by
  induction os generalizing o tv lk with
  | nil => simp [matchAtLevel]
  | cons bookOrder rest ih =>
    by_cases hf : o.isFilled
    · simp [matchAtLevel, hf]
    · simp only [matchAtLevel, hf, if_false, Bool.false_eq_true]
      by_cases hb : (⟨bookOrder.id, bookOrder.side, bookOrder.price, bookOrder.initialQuantity,
          bookOrder.remainingQuantity - min o.remainingQuantity bookOrder.remainingQuantity⟩
            : Order).isFilled <;>
        simp only [hb, if_true, if_false, Bool.false_eq_true] <;>
        exact ih ..

theorem matchAtLevel_trades_shape (o : Order) (p : Nat) (os : List Order) (tv : Nat)
    (lk : Lookup) :
    ∀ t ∈ (matchAtLevel o p os tv lk).trades,
      t.price = p ∧ t.takerOrderId = o.id ∧ t.makerOrderId ∈ idsOf os := by
  induction os generalizing o tv lk with
  | nil => simp [matchAtLevel]
  | cons bookOrder rest ih =>
    by_cases hf : o.isFilled
    · simp [matchAtLevel, hf]
    · simp only [matchAtLevel, hf, if_false, Bool.false_eq_true]
      by_cases hb : (⟨bookOrder.id, bookOrder.side, bookOrder.price, bookOrder.initialQuantity,
          bookOrder.remainingQuantity - min o.remainingQuantity bookOrder.remainingQuantity⟩
            : Order).isFilled <;>
        simp only [hb, if_true, if_false, Bool.false_eq_true] <;>
        intro t ht <;>
        rcases List.mem_cons.mp ht with h | h
      · subst h; simp [idsOf]
      · rcases ih _ _ _ _ h with ⟨h1, h2, h3⟩
        exact ⟨h1, h2, by simp [idsOf] at h3 ⊢; right; exact h3⟩
      · subst h; simp [idsOf]
      · rcases ih _ _ _ _ h with ⟨h1, h2, h3⟩
        exact ⟨h1, h2, by simp [idsOf] at h3 ⊢; right; exact h3⟩

theorem matchAgainstBook_inc_fields (o : Order) (side : List Level) (lk : Lookup) :
    (matchAgainstBook o side lk).incoming.id = o.id ∧
    (matchAgainstBook o side lk).incoming.side = o.side ∧
    (matchAgainstBook o side lk).incoming.price = o.price := by
  induction side generalizing o lk with
  | nil => simp [matchAgainstBook]
  | cons lvl rest ih =>
    by_cases hf : o.isFilled
    · simp [matchAgainstBook, hf]
    · by_cases hp : priceMatch o lvl.price
      · simp only [matchAgainstBook, hf, hp, if_true, if_false, Bool.false_eq_true]
        have h1 := matchAtLevel_inc_fields o lvl.price lvl.orders lvl.totalVolume lk
        have h2 := ih (matchAtLevel o lvl.price lvl.orders lvl.totalVolume lk).incoming
          (matchAtLevel o lvl.price lvl.orders lvl.totalVolume lk).lookup
        by_cases hE : (matchAtLevel o lvl.price lvl.orders lvl.totalVolume lk).orders.isEmpty <;>
          simp only [hE, if_true, if_false, Bool.false_eq_true] <;>
          exact ⟨h2.1.trans h1.1, h2.2.1.trans h1.2.1, h2.2.2.trans h1.2.2⟩
      · simp [matchAgainstBook, hf, hp]

theorem matchAgainstBook_trades_from_levels (o : Order) (side : List Level) (lk : Lookup) :
    ∀ t ∈ (matchAgainstBook o side lk).trades,
      ∃ l ∈ side, t.price = l.price ∧ t.makerOrderId ∈ idsOf l.orders ∧
        t.takerOrderId = o.id := by
  induction side generalizing o lk with
  | nil => simp [matchAgainstBook]
  | cons lvl rest ih =>
    by_cases hf : o.isFilled
    · simp [matchAgainstBook, hf]
    · by_cases hp : priceMatch o lvl.price
      · simp only [matchAgainstBook, hf, hp, if_true, if_false, Bool.false_eq_true]
        have hid := (matchAtLevel_inc_fields o lvl.price lvl.orders lvl.totalVolume lk).1
        have hloc := matchAtLevel_trades_shape o lvl.price lvl.orders lvl.totalVolume lk
        have hrec := ih (matchAtLevel o lvl.price lvl.orders lvl.totalVolume lk).incoming
          (matchAtLevel o lvl.price lvl.orders lvl.totalVolume lk).lookup
        by_cases hE : (matchAtLevel o lvl.price lvl.orders lvl.totalVolume lk).orders.isEmpty <;>
          simp only [hE, if_true, if_false, Bool.false_eq_true] <;>
          intro t ht <;>
          rcases List.mem_append.mp ht with h | h
        · rcases hloc t h with ⟨h1, h2, h3⟩
          exact ⟨lvl, List.mem_cons_self .., h1, h3, h2⟩
        · rcases hrec t h with ⟨l, hl, h1, h2, h3⟩
          exact ⟨l, List.mem_cons_of_mem _ hl, h1, h2, h3.trans hid⟩
        · rcases hloc t h with ⟨h1, h2, h3⟩
          exact ⟨lvl, List.mem_cons_self .., h1, h3, h2⟩
        · rcases hrec t h with ⟨l, hl, h1, h2, h3⟩
          exact ⟨l, List.mem_cons_of_mem _ hl, h1, h2, h3.trans hid⟩
      · simp [matchAgainstBook, hf, hp]

theorem matchAgainstBook_trades_pairwise (o : Order) (side : List Level) (lk : Lookup)
    (R : Nat → Nat → Prop) (hrefl : ∀ p, R p p)
    (hsorted : List.Pairwise (fun l1 l2 : Level => R l1.price l2.price) side) :
    List.Pairwise (fun t1 t2 : Trade => R t1.price t2.price)
      (matchAgainstBook o side lk).trades := by
  induction side generalizing o lk with
  | nil => simp [matchAgainstBook]
  | cons lvl rest ih =>
    by_cases hf : o.isFilled
    · simp [matchAgainstBook, hf]
    · by_cases hp : priceMatch o lvl.price
      · simp only [matchAgainstBook, hf, hp, if_true, if_false, Bool.false_eq_true]
        have hloc := matchAtLevel_trades_shape o lvl.price lvl.orders lvl.totalVolume lk
        have hrec0 := matchAgainstBook_trades_from_levels
          (matchAtLevel o lvl.price lvl.orders lvl.totalVolume lk).incoming rest
          (matchAtLevel o lvl.price lvl.orders lvl.totalVolume lk).lookup
        have hrec := ih (matchAtLevel o lvl.price lvl.orders lvl.totalVolume lk).incoming
          (matchAtLevel o lvl.price lvl.orders lvl.totalVolume lk).lookup
          (List.Pairwise.sublist (List.sublist_cons_self lvl rest) hsorted)
        have hcross : ∀ t1 ∈ (matchAtLevel o lvl.price lvl.orders lvl.totalVolume lk).trades,
            ∀ t2 ∈ (matchAgainstBook
              (matchAtLevel o lvl.price lvl.orders lvl.totalVolume lk).incoming rest
              (matchAtLevel o lvl.price lvl.orders lvl.totalVolume lk).lookup).trades,
            R t1.price t2.price := by
          intro t1 h1 t2 h2
          rcases hloc t1 h1 with ⟨e1, _, _⟩
          rcases hrec0 t2 h2 with ⟨l, hl, e2, _, _⟩
          rw [e1, e2]
          exact (List.pairwise_cons.mp hsorted).1 l hl
        have hsame : List.Pairwise (fun t1 t2 : Trade => R t1.price t2.price)
            (matchAtLevel o lvl.price lvl.orders lvl.totalVolume lk).trades := by
          apply List.pairwise_of_forall_mem_list
          intro t1 h1 t2 h2
          rw [(hloc t1 h1).1, (hloc t2 h2).1]
          exact hrefl lvl.price
        by_cases hE : (matchAtLevel o lvl.price lvl.orders lvl.totalVolume lk).orders.isEmpty <;>
          simp only [hE, if_true, if_false, Bool.false_eq_true] <;>
          exact List.pairwise_append.mpr ⟨hsame, hrec, hcross⟩
      · simp [matchAgainstBook, hf, hp]

/-- C7: trade price monotonicity.  The trades returned by an add have
    non-decreasing prices when the incoming order is a Buy and
    non-increasing prices when it is a Sell, given the price ordering of
    the two sides, and every trade price is the price of the level that
    held the maker. -/
theorem trade_prices_monotone (b : OrderBook) (o : Order)
    (hb : List.Pairwise (fun l1 l2 : Level => l2.price < l1.price) b.bids)
    (ha : List.Pairwise (fun l1 l2 : Level => l1.price < l2.price) b.asks) :
    (o.side = Side.Buy →
      List.Pairwise (fun t1 t2 : Trade => t1.price ≤ t2.price) (addOrder b o).2) ∧
    (o.side = Side.Sell →
      List.Pairwise (fun t1 t2 : Trade => t2.price ≤ t1.price) (addOrder b o).2) ∧
    (∀ t ∈ (addOrder b o).2, ∃ l ∈ oppositeLevels b o.side,
        t.price = l.price ∧ t.makerOrderId ∈ idsOf l.orders) := by
  by_cases hdup : (b.orderLookup o.id).isSome
  · simp [addOrder_dup b o hdup]
  · have hnone : b.orderLookup o.id = none := by
      cases h : b.orderLookup o.id
      · rfl
      · rw [h] at hdup; simp at hdup
    rw [addOrder_trades_eq b o hnone]
    refine ⟨?_, ?_, ?_⟩
    · intro hs
      rw [hs]
      exact matchAgainstBook_trades_pairwise o (oppositeLevels b Side.Buy) b.orderLookup
        (· ≤ ·) (fun p => le_refl p) (by
          simp only [oppositeLevels]
          exact ha.imp (fun h => le_of_lt h))
    · intro hs
      rw [hs]
      exact matchAgainstBook_trades_pairwise o (oppositeLevels b Side.Sell) b.orderLookup
        (fun p q => q ≤ p) (fun p => le_refl p) (by
          simp only [oppositeLevels]
          exact hb.imp (fun h => le_of_lt h))
    · intro t ht
      rcases matchAgainstBook_trades_from_levels o (oppositeLevels b o.side) b.orderLookup t ht
        with ⟨l, hl, h1, h2, _⟩
      exact ⟨l, hl, h1, h2⟩

theorem trade_prices_monotone_witness :
    List.Pairwise (fun l1 l2 : Level => l2.price < l1.price) seedAsksBook.bids ∧
    List.Pairwise (fun l1 l2 : Level => l1.price < l2.price) seedAsksBook.asks ∧
    List.Pairwise (fun t1 t2 : Trade => t1.price ≤ t2.price)
      (addOrder seedAsksBook (mkOrder 4 Side.Buy 101 8)).2 := by
  have h1 : List.Pairwise (fun l1 l2 : Level => l2.price < l1.price) seedAsksBook.bids := by
    have : seedAsksBook.bids = [] := rfl
    rw [this]; exact List.Pairwise.nil
  have h2 : List.Pairwise (fun l1 l2 : Level => l1.price < l2.price) seedAsksBook.asks := by
    have : seedAsksBook.asks =
        [⟨100, 5, [mkOrder 1 Side.Sell 100 2, mkOrder 2 Side.Sell 100 3]⟩,
         ⟨101, 4, [mkOrder 3 Side.Sell 101 4]⟩] := rfl
    rw [this]
    exact List.Pairwise.cons (by intro l hl; fin_cases hl <;> simp) (by simp)
  exact ⟨h1, h2,
    (trade_prices_monotone seedAsksBook (mkOrder 4 Side.Buy 101 8) h1 h2).1 rfl⟩

/-- C9: cancel undoes add.  Adding any order with positive remaining
    quantity equal to its initial quantity to the empty book and then
    cancelling its id succeeds and leaves both sides empty and the order
    index empty. -/
theorem cancel_undoes_add (o : Order) (h1 : 0 < o.remainingQuantity)
    (h2 : o.remainingQuantity = o.initialQuantity) :
    (cancelOrder (addOrder emptyBook o).1 o.id).2 = true ∧
    (cancelOrder (addOrder emptyBook o).1 o.id).1.bids = [] ∧
    (cancelOrder (addOrder emptyBook o).1 o.id).1.asks = [] ∧
    ∀ x, (cancelOrder (addOrder emptyBook o).1 o.id).1.orderLookup x = none := by
  have hf : o.isFilled = false := by
    simp only [Order.isFilled, beq_eq_false_iff_ne, ne_eq]
    omega
  cases hs : o.side <;>
    refine ⟨?_, ?_, ?_, fun x => ?_⟩ <;>
    first
    | (by_cases hx : x = o.id <;>
        simp [addOrder, matchAgainstBook, addToBook, insertIntoSide, insertLookup,
          cancelOrder, cancelInSide, cancelInLevel, findRemById, removeFirstById,
          eraseLookup, emptyBook, emptyLookup, hf, hs, hx])
    | simp [addOrder, matchAgainstBook, addToBook, insertIntoSide, insertLookup,
        cancelOrder, cancelInSide, cancelInLevel, findRemById, removeFirstById,
        eraseLookup, emptyBook, emptyLookup, hf, hs]

theorem cancel_undoes_add_witness :
    0 < (mkOrder 7 Side.Sell 42 6).remainingQuantity ∧
    (mkOrder 7 Side.Sell 42 6).remainingQuantity = (mkOrder 7 Side.Sell 42 6).initialQuantity ∧
    ((cancelOrder (addOrder emptyBook (mkOrder 7 Side.Sell 42 6)).1 7).2 = true ∧
      (cancelOrder (addOrder emptyBook (mkOrder 7 Side.Sell 42 6)).1 7).1.bids = [] ∧
      (cancelOrder (addOrder emptyBook (mkOrder 7 Side.Sell 42 6)).1 7).1.asks = [] ∧
      ∀ x, (cancelOrder (addOrder emptyBook (mkOrder 7 Side.Sell 42 6)).1 7).1.orderLookup x
        = none) :=
  ⟨by decide, rfl, cancel_undoes_add (mkOrder 7 Side.Sell 42 6) (by decide) rfl⟩

/-! Structural lemmas about the inner matching loop. -/

theorem matchAtLevel_filled (o : Order) (p : Nat) (os : List Order) (tv : Nat)
    (lk : Lookup) (h : o.isFilled = true) :
    matchAtLevel o p os tv lk = ⟨o, os, tv, lk, []⟩ := by
  cases os <;> simp [matchAtLevel, h]

theorem matchAtLevel_ids_sublist (o : Order) (p : Nat) (os : List Order) (tv : Nat)
    (lk : Lookup) :
    (idsOf (matchAtLevel o p os tv lk).orders).Sublist (idsOf os) := by
  induction os generalizing o tv lk with
  | nil => simp [matchAtLevel]
  | cons bookOrder rest ih =>
    by_cases hf : o.isFilled
    · simp [matchAtLevel, hf]
    · simp only [matchAtLevel, hf, if_false, Bool.false_eq_true]
      by_cases hb : (⟨bookOrder.id, bookOrder.side, bookOrder.price, bookOrder.initialQuantity,
          bookOrder.remainingQuantity - min o.remainingQuantity bookOrder.remainingQuantity⟩
            : Order).isFilled
      · simp only [hb, if_true]
        exact (ih ..).trans (by simp [idsOf])
      · simp only [hb, if_false, Bool.false_eq_true, idsOf, List.map_cons]
        exact List.Sublist.cons₂ _ (ih ..)

theorem matchAtLevel_stop (o : Order) (p : Nat) (os : List Order) (tv : Nat)
    (lk : Lookup) :
    (matchAtLevel o p os tv lk).orders ≠ [] →
      (matchAtLevel o p os tv lk).incoming.isFilled = true := by
  induction os generalizing o tv lk with
  | nil => simp [matchAtLevel]
  | cons bookOrder rest ih =>
    by_cases hf : o.isFilled
    · simp [matchAtLevel, hf]
    · simp only [matchAtLevel, hf, if_false, Bool.false_eq_true]
      by_cases hb : (⟨bookOrder.id, bookOrder.side, bookOrder.price, bookOrder.initialQuantity,
          bookOrder.remainingQuantity - min o.remainingQuantity bookOrder.remainingQuantity⟩
            : Order).isFilled
      · simp only [hb, if_true]
        intro hne
        exact ih _ _ _ hne
      · simp only [hb, if_false, Bool.false_eq_true]
        intro hne
        have hq : bookOrder.remainingQuantity
            - min o.remainingQuantity bookOrder.remainingQuantity ≠ 0 := by
          simpa [Order.isFilled] using hb
        have hz : o.remainingQuantity - min o.remainingQuantity bookOrder.remainingQuantity
            = 0 := by omega
        rw [matchAtLevel_filled _ _ _ _ _ (by simp [Order.isFilled, hz])]
        simp [Order.isFilled, hz]

theorem matchAtLevel_vol (o : Order) (p : Nat) (os : List Order) (tv : Nat)
    (lk : Lookup) (h : tv = sumRem os) :
    (matchAtLevel o p os tv lk).totalVolume = sumRem (matchAtLevel o p os tv lk).orders := by
  induction os generalizing o tv lk with
  | nil => simp [matchAtLevel, sumRem] at h ⊢; omega
  | cons bookOrder rest ih =>
    by_cases hf : o.isFilled
    · simp [matchAtLevel, hf, h]
    · simp only [matchAtLevel, hf, if_false, Bool.false_eq_true]
      by_cases hb : (⟨bookOrder.id, bookOrder.side, bookOrder.price, bookOrder.initialQuantity,
          bookOrder.remainingQuantity - min o.remainingQuantity bookOrder.remainingQuantity⟩
            : Order).isFilled
      · simp only [hb, if_true]
        have hq : bookOrder.remainingQuantity
            - min o.remainingQuantity bookOrder.remainingQuantity = 0 := by
          simpa [Order.isFilled] using hb
        apply ih
        simp only [sumRem, List.map_cons, List.sum_cons] at h ⊢
        omega
      · simp only [hb, if_false, Bool.false_eq_true]
        have hq : bookOrder.remainingQuantity
            - min o.remainingQuantity bookOrder.remainingQuantity ≠ 0 := by
          simpa [Order.isFilled] using hb
        have hz : o.remainingQuantity - min o.remainingQuantity bookOrder.remainingQuantity
            = 0 := by omega
        rw [matchAtLevel_filled _ _ _ _ _ (by simp [Order.isFilled, hz])]
        simp only [sumRem, List.map_cons, List.sum_cons] at h ⊢
        omega

theorem matchAtLevel_orders_mem (o : Order) (p : Nat) (os : List Order) (tv : Nat)
    (lk : Lookup) :
    ∀ x ∈ (matchAtLevel o p os tv lk).orders, ∃ y ∈ os,
      x.id = y.id ∧ x.side = y.side ∧ x.price = y.price ∧
      x.remainingQuantity ≤ y.remainingQuantity := by
  induction os generalizing o tv lk with
  | nil => simp [matchAtLevel]
  | cons bookOrder rest ih =>
    by_cases hf : o.isFilled
    · intro x hx
      simp only [matchAtLevel, hf, if_true] at hx
      exact ⟨x, hx, rfl, rfl, rfl, le_refl _⟩
    · simp only [matchAtLevel, hf, if_false, Bool.false_eq_true]
      by_cases hb : (⟨bookOrder.id, bookOrder.side, bookOrder.price, bookOrder.initialQuantity,
          bookOrder.remainingQuantity - min o.remainingQuantity bookOrder.remainingQuantity⟩
            : Order).isFilled
      · simp only [hb, if_true]
        intro x hx
        rcases ih _ _ _ x hx with ⟨y, hy, h1, h2, h3, h4⟩
        exact ⟨y, List.mem_cons_of_mem _ hy, h1, h2, h3, h4⟩
      · simp only [hb, if_false, Bool.false_eq_true]
        intro x hx
        rcases List.mem_cons.mp hx with h | h
        · subst h
          exact ⟨bookOrder, List.mem_cons_self .., rfl, rfl, rfl, Nat.sub_le _ _⟩
        · rcases ih _ _ _ x h with ⟨y, hy, h1, h2, h3, h4⟩
          exact ⟨y, List.mem_cons_of_mem _ hy, h1, h2, h3, h4⟩

theorem matchAtLevel_pos (o : Order) (p : Nat) (os : List Order) (tv : Nat)
    (lk : Lookup) (h : ∀ y ∈ os, 0 < y.remainingQuantity) :
    ∀ x ∈ (matchAtLevel o p os tv lk).orders, 0 < x.remainingQuantity := by
  induction os generalizing o tv lk with
  | nil => simp [matchAtLevel]
  | cons bookOrder rest ih =>
    by_cases hf : o.isFilled
    · intro x hx
      simp only [matchAtLevel, hf, if_true] at hx
      exact h x hx
    · simp only [matchAtLevel, hf, if_false, Bool.false_eq_true]
      by_cases hb : (⟨bookOrder.id, bookOrder.side, bookOrder.price, bookOrder.initialQuantity,
          bookOrder.remainingQuantity - min o.remainingQuantity bookOrder.remainingQuantity⟩
            : Order).isFilled
      · simp only [hb, if_true]
        exact ih _ _ _ (fun y hy => h y (List.mem_cons_of_mem _ hy))
      · simp only [hb, if_false, Bool.false_eq_true]
        have hq : bookOrder.remainingQuantity
            - min o.remainingQuantity bookOrder.remainingQuantity ≠ 0 := by
          simpa [Order.isFilled] using hb
        intro x hx
        rcases List.mem_cons.mp hx with h2 | h2
        · subst h2; simpa using Nat.pos_of_ne_zero hq
        · exact ih _ _ _ (fun y hy => h y (List.mem_cons_of_mem _ hy)) x h2

theorem matchAtLevel_lookup_outside (o : Order) (p : Nat) (os : List Order) (tv : Nat)
    (lk : Lookup) : ∀ x, x ∉ idsOf os → (matchAtLevel o p os tv lk).lookup x = lk x := by
  induction os generalizing o tv lk with
  | nil => simp [matchAtLevel]
  | cons bookOrder rest ih =>
    intro x hx
    have hcons : idsOf (bookOrder :: rest) = bookOrder.id :: idsOf rest := rfl
    rw [hcons, List.mem_cons, not_or] at hx
    obtain ⟨hx1, hx2⟩ := hx
    by_cases hf : o.isFilled
    · simp [matchAtLevel, hf]
    · simp only [matchAtLevel, hf, if_false, Bool.false_eq_true]
      by_cases hb : (⟨bookOrder.id, bookOrder.side, bookOrder.price, bookOrder.initialQuantity,
          bookOrder.remainingQuantity - min o.remainingQuantity bookOrder.remainingQuantity⟩
            : Order).isFilled
      · simp only [hb, if_true]
        rw [ih _ _ _ x hx2]
        simp [eraseLookup, hx1]
      · simp only [hb, if_false, Bool.false_eq_true]
        exact ih _ _ _ x hx2

theorem matchAtLevel_lookup_kept (o : Order) (p : Nat) (os : List Order) (tv : Nat)
    (lk : Lookup) (hnd : (idsOf os).Nodup) :
    ∀ x ∈ idsOf (matchAtLevel o p os tv lk).orders,
      (matchAtLevel o p os tv lk).lookup x = lk x := by
  induction os generalizing o tv lk with
  | nil => simp [matchAtLevel]
  | cons bookOrder rest ih =>
    have hcons : idsOf (bookOrder :: rest) = bookOrder.id :: idsOf rest := rfl
    rw [hcons] at hnd
    have hnd1 : bookOrder.id ∉ idsOf rest := (List.nodup_cons.mp hnd).1
    have hnd2 : (idsOf rest).Nodup := (List.nodup_cons.mp hnd).2
    by_cases hf : o.isFilled
    · simp [matchAtLevel, hf]
    · simp only [matchAtLevel, hf, if_false, Bool.false_eq_true]
      by_cases hb : (⟨bookOrder.id, bookOrder.side, bookOrder.price, bookOrder.initialQuantity,
          bookOrder.remainingQuantity - min o.remainingQuantity bookOrder.remainingQuantity⟩
            : Order).isFilled
      · simp only [hb, if_true]
        intro x hx
        have hxr : x ∈ idsOf rest :=
          (matchAtLevel_ids_sublist _ _ _ _ _).mem hx
        rw [ih _ _ _ hnd2 x hx]
        have hxne : ¬ x = bookOrder.id := fun h => hnd1 (h ▸ hxr)
        simp [eraseLookup, hxne]
      · simp only [hb, if_false, Bool.false_eq_true]
        intro x hx
        have hcons2 : idsOf ((⟨bookOrder.id, bookOrder.side, bookOrder.price,
            bookOrder.initialQuantity, bookOrder.remainingQuantity
              - min o.remainingQuantity bookOrder.remainingQuantity⟩ : Order)
            :: (matchAtLevel
              (⟨o.id, o.side, o.price, o.initialQuantity,
                o.remainingQuantity - min o.remainingQuantity bookOrder.remainingQuantity⟩
                  : Order)
              p rest (tv - min o.remainingQuantity bookOrder.remainingQuantity) lk).orders)
            = bookOrder.id :: idsOf (matchAtLevel
              (⟨o.id, o.side, o.price, o.initialQuantity,
                o.remainingQuantity - min o.remainingQuantity bookOrder.remainingQuantity⟩
                  : Order)
              p rest (tv - min o.remainingQuantity bookOrder.remainingQuantity) lk).orders :=
          rfl
        rw [hcons2, List.mem_cons] at hx
        rcases hx with h | h
        · subst h
          exact matchAtLevel_lookup_outside _ _ _ _ _ _ hnd1
        · exact ih _ _ _ hnd2 x h

theorem matchAtLevel_lookup_gone (o : Order) (p : Nat) (os : List Order) (tv : Nat)
    (lk : Lookup) (hnd : (idsOf os).Nodup) :
    ∀ x ∈ idsOf os, x ∉ idsOf (matchAtLevel o p os tv lk).orders →
      (matchAtLevel o p os tv lk).lookup x = none := by
  induction os generalizing o tv lk with
  | nil => simp [matchAtLevel, idsOf]
  | cons bookOrder rest ih =>
    have hcons : idsOf (bookOrder :: rest) = bookOrder.id :: idsOf rest := rfl
    rw [hcons] at hnd
    have hnd1 : bookOrder.id ∉ idsOf rest := (List.nodup_cons.mp hnd).1
    have hnd2 : (idsOf rest).Nodup := (List.nodup_cons.mp hnd).2
    by_cases hf : o.isFilled
    · intro x hx hxn
      simp only [matchAtLevel, hf, if_true] at hxn ⊢
      exact absurd hx hxn
    · simp only [matchAtLevel, hf, if_false, Bool.false_eq_true]
      by_cases hb : (⟨bookOrder.id, bookOrder.side, bookOrder.price, bookOrder.initialQuantity,
          bookOrder.remainingQuantity - min o.remainingQuantity bookOrder.remainingQuantity⟩
            : Order).isFilled
      · simp only [hb, if_true]
        intro x hx hxn
        rw [hcons, List.mem_cons] at hx
        rcases hx with h | h
        · subst h
          rw [matchAtLevel_lookup_outside _ _ _ _ _ _ hnd1]
          simp [eraseLookup]
        · exact ih _ _ _ hnd2 x h hxn
      · simp only [hb, if_false, Bool.false_eq_true]
        intro x hx hxn
        rw [hcons, List.mem_cons] at hx
        have hxn2 : x ∉ idsOf (matchAtLevel
            (⟨o.id, o.side, o.price, o.initialQuantity,
              o.remainingQuantity - min o.remainingQuantity bookOrder.remainingQuantity⟩
                : Order)
            p rest (tv - min o.remainingQuantity bookOrder.remainingQuantity) lk).orders := by
          intro hc
          exact hxn (List.mem_cons_of_mem _ hc)
        have hxnb : ¬ x = bookOrder.id := by
          intro h
          exact hxn (by rw [h]; exact List.mem_cons_self ..)
        rcases hx with h | h
        · exact absurd h hxnb
        · exact ih _ _ _ hnd2 x h hxn2

/-! Structural lemmas about the outer matching sweep. -/

theorem sideIds_cons (lvl : Level) (rest : List Level) :
    sideIds (lvl :: rest) = idsOf lvl.orders ++ sideIds rest := by
  simp [sideIds]

theorem mem_sideIds {x : Nat} {side : List Level} :
    x ∈ sideIds side ↔ ∃ l ∈ side, x ∈ idsOf l.orders := by
  simp [sideIds, List.mem_flatten]

theorem matchAgainstBook_prices_sublist (o : Order) (side : List Level) (lk : Lookup) :
    ((matchAgainstBook o side lk).levels.map Level.price).Sublist
      (side.map Level.price) := by
  induction side generalizing o lk with
  | nil => simp [matchAgainstBook]
  | cons lvl rest ih =>
    by_cases hf : o.isFilled
    · simp [matchAgainstBook, hf]
    · by_cases hp : priceMatch o lvl.price
      · simp only [matchAgainstBook, hf, hp, if_true, if_false, Bool.false_eq_true]
        by_cases hE : (matchAtLevel o lvl.price lvl.orders lvl.totalVolume lk).orders.isEmpty
        · simp only [hE, if_true, List.map_cons]
          exact ((ih ..).trans (List.sublist_cons_self ..))
        · simp only [hE, if_false, Bool.false_eq_true, List.map_cons]
          exact List.Sublist.cons₂ _ (ih ..)
      · simp [matchAgainstBook, hf, hp]

theorem matchAgainstBook_levels_mem (o : Order) (side : List Level) (lk : Lookup) :
    ∀ l2 ∈ (matchAgainstBook o side lk).levels, ∃ l ∈ side, l2.price = l.price ∧
      ∀ x ∈ l2.orders, ∃ y ∈ l.orders,
        x.id = y.id ∧ x.side = y.side ∧ x.price = y.price ∧
        x.remainingQuantity ≤ y.remainingQuantity := by
  induction side generalizing o lk with
  | nil => simp [matchAgainstBook]
  | cons lvl rest ih =>
    have hrefl : ∀ l2 ∈ lvl :: rest, ∃ l ∈ lvl :: rest, l2.price = l.price ∧
        ∀ x ∈ l2.orders, ∃ y ∈ l.orders,
          x.id = y.id ∧ x.side = y.side ∧ x.price = y.price ∧
          x.remainingQuantity ≤ y.remainingQuantity :=
      fun l2 h2 => ⟨l2, h2, rfl, fun x hx => ⟨x, hx, rfl, rfl, rfl, le_refl _⟩⟩
    by_cases hf : o.isFilled
    · simpa [matchAgainstBook, hf] using hrefl
    · by_cases hp : priceMatch o lvl.price
      · simp only [matchAgainstBook, hf, hp, if_true, if_false, Bool.false_eq_true]
        by_cases hE : (matchAtLevel o lvl.price lvl.orders lvl.totalVolume lk).orders.isEmpty
        · simp only [hE, if_true]
          intro l2 h2
          rcases ih _ _ l2 h2 with ⟨l, hl, h3, h4⟩
          exact ⟨l, List.mem_cons_of_mem _ hl, h3, h4⟩
        · simp only [hE, if_false, Bool.false_eq_true]
          intro l2 h2
          rcases List.mem_cons.mp h2 with h | h
          · subst h
            exact ⟨lvl, List.mem_cons_self .., rfl,
              matchAtLevel_orders_mem o lvl.price lvl.orders lvl.totalVolume lk⟩
          · rcases ih _ _ l2 h with ⟨l, hl, h3, h4⟩
            exact ⟨l, List.mem_cons_of_mem _ hl, h3, h4⟩
      · simpa [matchAgainstBook, hf, hp] using hrefl

theorem matchAgainstBook_vol (o : Order) (side : List Level) (lk : Lookup)
    (h : ∀ l ∈ side, l.totalVolume = sumRem l.orders) :
    ∀ l2 ∈ (matchAgainstBook o side lk).levels, l2.totalVolume = sumRem l2.orders := by
  induction side generalizing o lk with
  | nil => simp [matchAgainstBook]
  | cons lvl rest ih =>
    by_cases hf : o.isFilled
    · simpa [matchAgainstBook, hf] using h
    · by_cases hp : priceMatch o lvl.price
      · simp only [matchAgainstBook, hf, hp, if_true, if_false, Bool.false_eq_true]
        have hrest := fun l hl => h l (List.mem_cons_of_mem _ hl)
        by_cases hE : (matchAtLevel o lvl.price lvl.orders lvl.totalVolume lk).orders.isEmpty
        · simp only [hE, if_true]
          exact ih _ _ hrest
        · simp only [hE, if_false, Bool.false_eq_true]
          intro l2 h2
          rcases List.mem_cons.mp h2 with h3 | h3
          · subst h3
            exact matchAtLevel_vol o lvl.price lvl.orders lvl.totalVolume lk
              (h lvl (List.mem_cons_self ..))
          · exact ih _ _ hrest l2 h3
      · simpa [matchAgainstBook, hf, hp] using h

theorem matchAgainstBook_nonempty (o : Order) (side : List Level) (lk : Lookup)
    (h : ∀ l ∈ side, l.orders ≠ []) :
    ∀ l2 ∈ (matchAgainstBook o side lk).levels, l2.orders ≠ [] := by
  induction side generalizing o lk with
  | nil => simp [matchAgainstBook]
  | cons lvl rest ih =>
    by_cases hf : o.isFilled
    · simpa [matchAgainstBook, hf] using h
    · by_cases hp : priceMatch o lvl.price
      · simp only [matchAgainstBook, hf, hp, if_true, if_false, Bool.false_eq_true]
        have hrest := fun l hl => h l (List.mem_cons_of_mem _ hl)
        by_cases hE : (matchAtLevel o lvl.price lvl.orders lvl.totalVolume lk).orders.isEmpty
        · simp only [hE, if_true]
          exact ih _ _ hrest
        · simp only [hE, if_false, Bool.false_eq_true]
          intro l2 h2
          rcases List.mem_cons.mp h2 with h3 | h3
          · subst h3
            intro hc
            have hc2 : (matchAtLevel o lvl.price lvl.orders lvl.totalVolume lk).orders = [] := hc
            rw [hc2] at hE
            simp at hE
          · exact ih _ _ hrest l2 h3
      · simpa [matchAgainstBook, hf, hp] using h

theorem matchAgainstBook_pos (o : Order) (side : List Level) (lk : Lookup)
    (h : ∀ l ∈ side, ∀ y ∈ l.orders, 0 < y.remainingQuantity) :
    ∀ l2 ∈ (matchAgainstBook o side lk).levels, ∀ x ∈ l2.orders,
      0 < x.remainingQuantity := by
  induction side generalizing o lk with
  | nil => simp [matchAgainstBook]
  | cons lvl rest ih =>
    by_cases hf : o.isFilled
    · simpa [matchAgainstBook, hf] using h
    · by_cases hp : priceMatch o lvl.price
      · simp only [matchAgainstBook, hf, hp, if_true, if_false, Bool.false_eq_true]
        have hrest := fun l hl => h l (List.mem_cons_of_mem _ hl)
        by_cases hE : (matchAtLevel o lvl.price lvl.orders lvl.totalVolume lk).orders.isEmpty
        · simp only [hE, if_true]
          exact ih _ _ hrest
        · simp only [hE, if_false, Bool.false_eq_true]
          intro l2 h2
          rcases List.mem_cons.mp h2 with h3 | h3
          · subst h3
            exact matchAtLevel_pos o lvl.price lvl.orders lvl.totalVolume lk
              (h lvl (List.mem_cons_self ..))
          · exact ih _ _ hrest l2 h3
      · simpa [matchAgainstBook, hf, hp] using h

theorem matchAgainstBook_data (o : Order) (side : List Level) (lk : Lookup) (s : Side)
    (h : ∀ l ∈ side, ∀ y ∈ l.orders, y.side = s ∧ y.price = l.price) :
    ∀ l2 ∈ (matchAgainstBook o side lk).levels, ∀ x ∈ l2.orders,
      x.side = s ∧ x.price = l2.price := by
  intro l2 h2 x hx
  rcases matchAgainstBook_levels_mem o side lk l2 h2 with ⟨l, hl, hpr, hord⟩
  rcases hord x hx with ⟨y, hy, h1, h2b, h3, _⟩
  rcases h l hl y hy with ⟨h4, h5⟩
  exact ⟨h2b.trans h4, by rw [h3, hpr]; exact h5⟩

theorem priceMatch_ext (o1 o2 : Order) (p : Nat) (hs : o1.side = o2.side)
    (hp : o1.price = o2.price) : priceMatch o1 p = priceMatch o2 p := by
  unfold priceMatch
  rw [hs, hp]

theorem matchAgainstBook_stop (o : Order) (side : List Level) (lk : Lookup) :
    (matchAgainstBook o side lk).incoming.isFilled = false →
    ∀ l2 tl, (matchAgainstBook o side lk).levels = l2 :: tl →
      priceMatch o l2.price = false := by
  induction side generalizing o lk with
  | nil => simp [matchAgainstBook]
  | cons lvl rest ih =>
    by_cases hf : o.isFilled
    · simp [matchAgainstBook, hf]
    · by_cases hp : priceMatch o lvl.price
      · simp only [matchAgainstBook, hf, hp, if_true, if_false, Bool.false_eq_true]
        by_cases hE : (matchAtLevel o lvl.price lvl.orders lvl.totalVolume lk).orders.isEmpty
        · simp only [hE, if_true]
          intro hnf l2 tl hl
          have hpm : priceMatch (matchAtLevel o lvl.price lvl.orders lvl.totalVolume lk).incoming
              l2.price = false := by
            apply ih _ _ hnf l2 tl hl
          have hfl := matchAtLevel_inc_fields o lvl.price lvl.orders lvl.totalVolume lk
          rw [priceMatch_ext _ o _ hfl.2.1 hfl.2.2] at hpm
          exact hpm
        · simp only [hE, if_false, Bool.false_eq_true]
          intro hnf l2 tl hl
          exfalso
          have hne : (matchAtLevel o lvl.price lvl.orders lvl.totalVolume lk).orders ≠ [] := by
            intro hc; rw [hc] at hE; simp at hE
          have hfill := matchAtLevel_stop o lvl.price lvl.orders lvl.totalVolume lk hne
          rw [matchAgainstBook_filled _ _ _ hfill] at hnf
          rw [hfill] at hnf
          simp at hnf
      · simp only [matchAgainstBook, hf, hp, if_false, Bool.false_eq_true, if_true]
        intro hnf l2 tl hl
        have : l2 = lvl := by
          injection hl with h1 _
          exact h1.symm
        subst this
        simpa using hp

theorem matchAgainstBook_ids_sublist (o : Order) (side : List Level) (lk : Lookup) :
    (sideIds (matchAgainstBook o side lk).levels).Sublist (sideIds side) := by
  induction side generalizing o lk with
  | nil => simp [matchAgainstBook]
  | cons lvl rest ih =>
    by_cases hf : o.isFilled
    · simp [matchAgainstBook, hf]
    · by_cases hp : priceMatch o lvl.price
      · simp only [matchAgainstBook, hf, hp, if_true, if_false, Bool.false_eq_true]
        by_cases hE : (matchAtLevel o lvl.price lvl.orders lvl.totalVolume lk).orders.isEmpty
        · simp only [hE, if_true, sideIds_cons]
          exact ((ih ..).trans (List.sublist_append_right ..))
        · simp only [hE, if_false, Bool.false_eq_true, sideIds_cons]
          exact List.Sublist.append (matchAtLevel_ids_sublist ..) (ih ..)
      · simp [matchAgainstBook, hf, hp]

theorem matchAgainstBook_lookup_outside (o : Order) (side : List Level) (lk : Lookup) :
    ∀ x, x ∉ sideIds side → (matchAgainstBook o side lk).lookup x = lk x := by
  induction side generalizing o lk with
  | nil => simp [matchAgainstBook]
  | cons lvl rest ih =>
    intro x hx
    rw [sideIds_cons, List.mem_append, not_or] at hx
    obtain ⟨hx1, hx2⟩ := hx
    by_cases hf : o.isFilled
    · simp [matchAgainstBook, hf]
    · by_cases hp : priceMatch o lvl.price
      · simp only [matchAgainstBook, hf, hp, if_true, if_false, Bool.false_eq_true]
        by_cases hE : (matchAtLevel o lvl.price lvl.orders lvl.totalVolume lk).orders.isEmpty <;>
          simp only [hE, if_true, if_false, Bool.false_eq_true] <;>
          rw [ih _ _ x hx2, matchAtLevel_lookup_outside _ _ _ _ _ x hx1]
      · simp [matchAgainstBook, hf, hp]

theorem matchAgainstBook_lookup_kept (o : Order) (side : List Level) (lk : Lookup)
    (hnd : (sideIds side).Nodup) :
    ∀ x ∈ sideIds (matchAgainstBook o side lk).levels,
      (matchAgainstBook o side lk).lookup x = lk x := by
  induction side generalizing o lk with
  | nil => simp [matchAgainstBook, sideIds]
  | cons lvl rest ih =>
    rw [sideIds_cons] at hnd
    have hndl := (List.nodup_append.mp hnd).1
    have hndr := (List.nodup_append.mp hnd).2.1
    have hdis := (List.nodup_append.mp hnd).2.2
    by_cases hf : o.isFilled
    · simp [matchAgainstBook, hf]
    · by_cases hp : priceMatch o lvl.price
      · simp only [matchAgainstBook, hf, hp, if_true, if_false, Bool.false_eq_true]
        by_cases hE : (matchAtLevel o lvl.price lvl.orders lvl.totalVolume lk).orders.isEmpty
        · simp only [hE, if_true]
          intro x hx
          have hxr : x ∈ sideIds rest := (matchAgainstBook_ids_sublist ..).mem hx
          have hxnl : x ∉ idsOf lvl.orders := fun hc => hdis hc hxr
          rw [ih _ _ hndr x hx, matchAtLevel_lookup_outside _ _ _ _ _ x hxnl]
        · simp only [hE, if_false, Bool.false_eq_true]
          intro x hx
          rw [sideIds_cons, List.mem_append] at hx
          rcases hx with h | h
          · have hxl : x ∈ idsOf lvl.orders := (matchAtLevel_ids_sublist ..).mem h
            have hxnr : x ∉ sideIds rest := fun hc => hdis hxl hc
            rw [matchAgainstBook_lookup_outside _ _ _ x hxnr,
              matchAtLevel_lookup_kept _ _ _ _ _ hndl x h]
          · have hxr : x ∈ sideIds rest := (matchAgainstBook_ids_sublist ..).mem h
            have hxnl : x ∉ idsOf lvl.orders := fun hc => hdis hc hxr
            rw [ih _ _ hndr x h, matchAtLevel_lookup_outside _ _ _ _ _ x hxnl]
      · simp [matchAgainstBook, hf, hp]

theorem matchAgainstBook_lookup_gone (o : Order) (side : List Level) (lk : Lookup)
    (hnd : (sideIds side).Nodup) :
    ∀ x ∈ sideIds side, x ∉ sideIds (matchAgainstBook o side lk).levels →
      (matchAgainstBook o side lk).lookup x = none := by
  induction side generalizing o lk with
  | nil => simp [matchAgainstBook, sideIds]
  | cons lvl rest ih =>
    rw [sideIds_cons] at hnd
    have hndl := (List.nodup_append.mp hnd).1
    have hndr := (List.nodup_append.mp hnd).2.1
    have hdis := (List.nodup_append.mp hnd).2.2
    by_cases hf : o.isFilled
    · intro x hx hxn
      simp only [matchAgainstBook, hf, if_true] at hxn ⊢
      rw [sideIds_cons] at hxn
      exact absurd hx hxn
    · by_cases hp : priceMatch o lvl.price
      · simp only [matchAgainstBook, hf, hp, if_true, if_false, Bool.false_eq_true]
        by_cases hE : (matchAtLevel o lvl.price lvl.orders lvl.totalVolume lk).orders.isEmpty
        · simp only [hE, if_true]
          intro x hx hxn
          rw [sideIds_cons, List.mem_append] at hx
          rcases hx with h | h
          · have hor : (matchAtLevel o lvl.price lvl.orders lvl.totalVolume lk).orders = [] :=
              List.isEmpty_iff.mp hE
            have hgone : x ∉ idsOf (matchAtLevel o lvl.price lvl.orders lvl.totalVolume
                lk).orders := by rw [hor]; simp [idsOf]
            have hxnr : x ∉ sideIds rest := fun hc => hdis h hc
            rw [matchAgainstBook_lookup_outside _ _ _ x hxnr,
              matchAtLevel_lookup_gone _ _ _ _ _ hndl x h hgone]
          · exact ih _ _ hndr x h hxn
        · simp only [hE, if_false, Bool.false_eq_true]
          intro x hx hxn
          rw [sideIds_cons, List.mem_append, not_or] at hxn
          obtain ⟨hxn1, hxn2⟩ := hxn
          rw [sideIds_cons, List.mem_append] at hx
          rcases hx with h | h
          · have hxnr : x ∉ sideIds rest := fun hc => hdis h hc
            rw [matchAgainstBook_lookup_outside _ _ _ x hxnr,
              matchAtLevel_lookup_gone _ _ _ _ _ hndl x h hxn1]
          · exact ih _ _ hndr x h hxn2
      · intro x hx hxn
        simp only [matchAgainstBook, hf, hp, if_false, Bool.false_eq_true, if_true] at hxn ⊢
        rw [sideIds_cons] at hxn
        exact absurd hx hxn

theorem matchAgainstBook_located (o : Order) (side : List Level) (lk : Lookup)
    (hnd : (sideIds side).Nodup) :
    ∀ l ∈ side, ∀ x ∈ idsOf l.orders, x ∈ sideIds (matchAgainstBook o side lk).levels →
      ∃ l2 ∈ (matchAgainstBook o side lk).levels, l2.price = l.price ∧
        x ∈ idsOf l2.orders := by
  induction side generalizing o lk with
  | nil => simp [matchAgainstBook]
  | cons lvl rest ih =>
    rw [sideIds_cons] at hnd
    have hndl := (List.nodup_append.mp hnd).1
    have hndr := (List.nodup_append.mp hnd).2.1
    have hdis := (List.nodup_append.mp hnd).2.2
    by_cases hf : o.isFilled
    · intro l hl x hx hxin
      simp only [matchAgainstBook, hf, if_true] at hxin ⊢
      exact ⟨l, hl, rfl, hx⟩
    · by_cases hp : priceMatch o lvl.price
      · simp only [matchAgainstBook, hf, hp, if_true, if_false, Bool.false_eq_true]
        by_cases hE : (matchAtLevel o lvl.price lvl.orders lvl.totalVolume lk).orders.isEmpty
        · simp only [hE, if_true]
          intro l hl x hx hxin
          have hxr : x ∈ sideIds rest := (matchAgainstBook_ids_sublist ..).mem hxin
          rcases List.mem_cons.mp hl with h | h
          · exfalso
            subst h
            exact hdis hx hxr
          · exact ih _ _ hndr l h x hx hxin
        · simp only [hE, if_false, Bool.false_eq_true]
          intro l hl x hx hxin
          rw [sideIds_cons, List.mem_append] at hxin
          rcases List.mem_cons.mp hl with h | h
          · subst h
            rcases hxin with h2 | h2
            · exact ⟨_, List.mem_cons_self .., rfl, h2⟩
            · exfalso
              exact hdis hx ((matchAgainstBook_ids_sublist ..).mem h2)
          · have hxr : x ∈ sideIds rest := mem_sideIds.mpr ⟨l, h, hx⟩
            rcases hxin with h2 | h2
            · exfalso
              exact hdis ((matchAtLevel_ids_sublist ..).mem h2) hxr
            · rcases ih _ _ hndr l h x hx h2 with ⟨l2, hl2, h3, h4⟩
              exact ⟨l2, List.mem_cons_of_mem _ hl2, h3, h4⟩
      · intro l hl x hx hxin
        simp only [matchAgainstBook, hf, hp, if_false, Bool.false_eq_true, if_true] at hxin ⊢
        exact ⟨l, hl, rfl, hx⟩

/-! Lemmas about resting insertion. -/

theorem insertIntoSide_prices (before : Nat → Nat → Bool) (o : Order) (side : List Level) :
    ∀ l2 ∈ insertIntoSide before o side, l2.price = o.price ∨ l2.price ∈ side.map Level.price := by
  induction side with
  | nil => simp [insertIntoSide]
  | cons lvl rest ih =>
    simp only [insertIntoSide]
    by_cases heq : lvl.price = o.price
    · rw [if_pos heq]
      intro l2 h2
      rcases List.mem_cons.mp h2 with h | h
      · subst h; left; exact heq
      · right; simp; exact Or.inr ⟨l2, h, rfl⟩
    · rw [if_neg heq]
      by_cases hbf : before o.price lvl.price
      · rw [if_pos hbf]
        intro l2 h2
        rcases List.mem_cons.mp h2 with h | h
        · subst h; left; rfl
        · right
          rcases List.mem_cons.mp h with h3 | h3
          · subst h3; simp
          · simp; exact Or.inr ⟨l2, h3, rfl⟩
      · rw [if_neg hbf]
        intro l2 h2
        rcases List.mem_cons.mp h2 with h | h
        · subst h; right; simp
        · rcases ih l2 h with h3 | h3
          · left; exact h3
          · right; simp at h3 ⊢; exact Or.inr h3

theorem insertIntoSide_mem (before : Nat → Nat → Bool) (o : Order) (side : List Level) :
    ∀ l2 ∈ insertIntoSide before o side,
      l2 ∈ side ∨ l2 = ⟨o.price, o.remainingQuantity, [o]⟩ ∨
      ∃ l ∈ side, l.price = o.price ∧
        l2 = ⟨l.price, l.totalVolume + o.remainingQuantity, l.orders ++ [o]⟩ := by
  induction side with
  | nil => simp [insertIntoSide]
  | cons lvl rest ih =>
    simp only [insertIntoSide]
    by_cases heq : lvl.price = o.price
    · rw [if_pos heq]
      intro l2 h2
      rcases List.mem_cons.mp h2 with h | h
      · right; right
        exact ⟨lvl, List.mem_cons_self .., heq, h⟩
      · left; exact List.mem_cons_of_mem _ h
    · rw [if_neg heq]
      by_cases hbf : before o.price lvl.price
      · rw [if_pos hbf]
        intro l2 h2
        rcases List.mem_cons.mp h2 with h | h
        · right; left; exact h
        · left; exact h
      · rw [if_neg hbf]
        intro l2 h2
        rcases List.mem_cons.mp h2 with h | h
        · left; rw [h]; exact List.mem_cons_self ..
        · rcases ih l2 h with h3 | h3 | ⟨l, hl, h4, h5⟩
          · left; exact List.mem_cons_of_mem _ h3
          · right; left; exact h3
          · right; right; exact ⟨l, List.mem_cons_of_mem _ hl, h4, h5⟩

theorem insertIntoSide_located (before : Nat → Nat → Bool) (o : Order) (side : List Level) :
    ∀ l ∈ side, ∃ l2 ∈ insertIntoSide before o side,
      l2.price = l.price ∧ ∀ x ∈ l.orders, x ∈ l2.orders := by
  induction side with
  | nil => simp
  | cons lvl rest ih =>
    simp only [insertIntoSide]
    by_cases heq : lvl.price = o.price
    · rw [if_pos heq]
      intro l hl
      rcases List.mem_cons.mp hl with h | h
      · subst h
        refine ⟨_, List.mem_cons_self .., rfl, ?_⟩
        intro x hx
        simp [hx]
      · exact ⟨l, List.mem_cons_of_mem _ h, rfl, fun x hx => hx⟩
    · rw [if_neg heq]
      by_cases hbf : before o.price lvl.price
      · rw [if_pos hbf]
        intro l hl
        exact ⟨l, List.mem_cons_of_mem _ hl, rfl, fun x hx => hx⟩
      · rw [if_neg hbf]
        intro l hl
        rcases List.mem_cons.mp hl with h | h
        · subst h
          exact ⟨l, List.mem_cons_self .., rfl, fun x hx => hx⟩
        · rcases ih l h with ⟨l2, hl2, h3, h4⟩
          exact ⟨l2, List.mem_cons_of_mem _ hl2, h3, h4⟩

theorem insertIntoSide_self (before : Nat → Nat → Bool) (o : Order) (side : List Level) :
    ∃ l2 ∈ insertIntoSide before o side, l2.price = o.price ∧ o ∈ l2.orders := by
  induction side with
  | nil => exact ⟨_, List.mem_cons_self .., rfl, List.mem_cons_self ..⟩
  | cons lvl rest ih =>
    simp only [insertIntoSide]
    by_cases heq : lvl.price = o.price
    · rw [if_pos heq]
      exact ⟨_, List.mem_cons_self .., heq, by simp⟩
    · rw [if_neg heq]
      by_cases hbf : before o.price lvl.price
      · rw [if_pos hbf]
        exact ⟨_, List.mem_cons_self .., rfl, List.mem_cons_self ..⟩
      · rw [if_neg hbf]
        rcases ih with ⟨l2, hl2, h3, h4⟩
        exact ⟨l2, List.mem_cons_of_mem _ hl2, h3, h4⟩

theorem insertIntoSide_ids_perm (before : Nat → Nat → Bool) (o : Order) (side : List Level) :
    (sideIds (insertIntoSide before o side)).Perm (o.id :: sideIds side) := by
  induction side with
  | nil => simp [insertIntoSide, sideIds, idsOf]
  | cons lvl rest ih =>
    simp only [insertIntoSide]
    by_cases heq : lvl.price = o.price
    · rw [if_pos heq, sideIds_cons, sideIds_cons]
      have h1 : idsOf (lvl.orders ++ [o])
          = idsOf lvl.orders ++ [o.id] := by simp [idsOf]
      have h2 : (⟨lvl.price, lvl.totalVolume + o.remainingQuantity, lvl.orders ++ [o]⟩
          : Level).orders = lvl.orders ++ [o] := rfl
      rw [h2, h1, List.append_assoc]
      exact @List.perm_middle _ o.id (idsOf lvl.orders) (sideIds rest)
    · rw [if_neg heq]
      by_cases hbf : before o.price lvl.price
      · rw [if_pos hbf]
        rw [sideIds_cons]
        have h3 : idsOf (⟨o.price, o.remainingQuantity, [o]⟩ : Level).orders = [o.id] := rfl
        rw [h3]
        exact List.Perm.refl _
      · rw [if_neg hbf, sideIds_cons, sideIds_cons]
        exact (List.Perm.append_left _ ih).trans
          (@List.perm_middle _ o.id (idsOf lvl.orders) (sideIds rest))

theorem sumRem_append (a b : List Order) : sumRem (a ++ b) = sumRem a + sumRem b := by
  simp [sumRem]

theorem insertIntoSide_vol (before : Nat → Nat → Bool) (o : Order) (side : List Level)
    (hv : ∀ l ∈ side, l.totalVolume = sumRem l.orders) :
    ∀ l2 ∈ insertIntoSide before o side, l2.totalVolume = sumRem l2.orders := by
  intro l2 h2
  rcases insertIntoSide_mem before o side l2 h2 with h | h | ⟨l, hl, h3, h4⟩
  · exact hv l2 h
  · subst h; simp [sumRem]
  · subst h4
    have := hv l hl
    simp [sumRem_append, sumRem, this]

theorem insertIntoSide_nonempty (before : Nat → Nat → Bool) (o : Order) (side : List Level)
    (hv : ∀ l ∈ side, l.orders ≠ []) :
    ∀ l2 ∈ insertIntoSide before o side, l2.orders ≠ [] := by
  intro l2 h2
  rcases insertIntoSide_mem before o side l2 h2 with h | h | ⟨l, hl, h3, h4⟩
  · exact hv l2 h
  · subst h; simp
  · subst h4; simp

theorem insertIntoSide_pos (before : Nat → Nat → Bool) (o : Order) (side : List Level)
    (hv : ∀ l ∈ side, ∀ x ∈ l.orders, 0 < x.remainingQuantity)
    (ho : 0 < o.remainingQuantity) :
    ∀ l2 ∈ insertIntoSide before o side, ∀ x ∈ l2.orders, 0 < x.remainingQuantity := by
  intro l2 h2
  rcases insertIntoSide_mem before o side l2 h2 with h | h | ⟨l, hl, h3, h4⟩
  · exact hv l2 h
  · subst h
    intro x hx
    rcases List.mem_singleton.mp hx with h5
    subst h5; exact ho
  · subst h4
    intro x hx
    rcases List.mem_append.mp hx with h5 | h5
    · exact hv l hl x h5
    · rcases List.mem_singleton.mp h5 with h6
      subst h6; exact ho

theorem insertIntoSide_data (before : Nat → Nat → Bool) (o : Order) (side : List Level)
    (s : Side) (hv : ∀ l ∈ side, ∀ x ∈ l.orders, x.side = s ∧ x.price = l.price)
    (hs : o.side = s) :
    ∀ l2 ∈ insertIntoSide before o side, ∀ x ∈ l2.orders,
      x.side = s ∧ x.price = l2.price := by
  intro l2 h2
  rcases insertIntoSide_mem before o side l2 h2 with h | h | ⟨l, hl, h3, h4⟩
  · exact hv l2 h
  · subst h
    intro x hx
    rcases List.mem_singleton.mp hx with h5
    subst h5; exact ⟨hs, rfl⟩
  · subst h4
    intro x hx
    rcases List.mem_append.mp hx with h5 | h5
    · exact hv l hl x h5
    · rcases List.mem_singleton.mp h5 with h6
      subst h6; exact ⟨hs, h3.symm⟩

theorem insertIntoSide_sorted_bids (o : Order) (side : List Level)
    (hs : List.Pairwise (fun l1 l2 : Level => l2.price < l1.price) side) :
    List.Pairwise (fun l1 l2 : Level => l2.price < l1.price)
      (insertIntoSide bidsBefore o side) := by
  induction side with
  | nil => simp [insertIntoSide]
  | cons lvl rest ih =>
    have hhead := (List.pairwise_cons.mp hs).1
    have htl := (List.pairwise_cons.mp hs).2
    simp only [insertIntoSide]
    by_cases heq : lvl.price = o.price
    · rw [if_pos heq]
      exact List.Pairwise.cons (fun b hb => hhead b hb) htl
    · rw [if_neg heq]
      by_cases hbf : bidsBefore o.price lvl.price
      · rw [if_pos hbf]
        have hlt : lvl.price < o.price := by simpa [bidsBefore] using hbf
        refine List.Pairwise.cons ?_ hs
        intro b hb
        rcases List.mem_cons.mp hb with h | h
        · subst h; exact hlt
        · exact lt_trans (hhead b h) hlt
      · rw [if_neg hbf]
        have hgt : o.price < lvl.price := by
          have h1 : ¬ lvl.price < o.price := by simpa [bidsBefore] using hbf
          omega
        refine List.Pairwise.cons ?_ (ih htl)
        intro b hb
        rcases insertIntoSide_prices bidsBefore o rest b hb with h | h
        · rw [h]; exact hgt
        · rcases List.mem_map.mp h with ⟨a, ha, hpr⟩
          rw [← hpr]
          exact hhead a ha

theorem insertIntoSide_sorted_asks (o : Order) (side : List Level)
    (hs : List.Pairwise (fun l1 l2 : Level => l1.price < l2.price) side) :
    List.Pairwise (fun l1 l2 : Level => l1.price < l2.price)
      (insertIntoSide asksBefore o side) := by
  induction side with
  | nil => simp [insertIntoSide]
  | cons lvl rest ih =>
    have hhead := (List.pairwise_cons.mp hs).1
    have htl := (List.pairwise_cons.mp hs).2
    simp only [insertIntoSide]
    by_cases heq : lvl.price = o.price
    · rw [if_pos heq]
      exact List.Pairwise.cons (fun b hb => hhead b hb) htl
    · rw [if_neg heq]
      by_cases hbf : asksBefore o.price lvl.price
      · rw [if_pos hbf]
        have hlt : o.price < lvl.price := by simpa [asksBefore] using hbf
        refine List.Pairwise.cons ?_ hs
        intro b hb
        rcases List.mem_cons.mp hb with h | h
        · subst h; exact hlt
        · exact lt_trans hlt (hhead b h)
      · rw [if_neg hbf]
        have hgt : lvl.price < o.price := by
          have h1 : ¬ o.price < lvl.price := by simpa [asksBefore] using hbf
          omega
        refine List.Pairwise.cons ?_ (ih htl)
        intro b hb
        rcases insertIntoSide_prices asksBefore o rest b hb with h | h
        · rw [h]; exact hgt
        · rcases List.mem_map.mp h with ⟨a, ha, hpr⟩
          rw [← hpr]
          exact hhead a ha

/-! Lemmas about cancellation. -/

theorem removeFirstById_sublist (os : List Order) (oid : Nat) :
    (removeFirstById os oid).Sublist os := by
  induction os with
  | nil => simp [removeFirstById]
  | cons o rest ih =>
    simp only [removeFirstById]
    by_cases h : o.id = oid
    · rw [if_pos h]
      exact List.sublist_cons_self ..
    · rw [if_neg h]
      exact List.Sublist.cons₂ _ ih

theorem findRemById_isSome_of_mem (os : List Order) (oid : Nat) (h : oid ∈ idsOf os) :
    ∃ q, findRemById os oid = some q := by
  induction os with
  | nil => simp [idsOf] at h
  | cons o rest ih =>
    simp only [findRemById]
    by_cases h2 : o.id = oid
    · rw [if_pos h2]
      exact ⟨o.remainingQuantity, rfl⟩
    · rw [if_neg h2]
      apply ih
      have hcons : idsOf (o :: rest) = o.id :: idsOf rest := rfl
      rw [hcons, List.mem_cons] at h
      rcases h with h3 | h3
      · exact absurd h3.symm h2
      · exact h3

theorem findRemById_none_of_not_mem (os : List Order) (oid : Nat) (h : oid ∉ idsOf os) :
    findRemById os oid = none := by
  induction os with
  | nil => simp [findRemById]
  | cons o rest ih =>
    have hcons : idsOf (o :: rest) = o.id :: idsOf rest := rfl
    rw [hcons, List.mem_cons, not_or] at h
    simp only [findRemById]
    rw [if_neg (fun hc => h.1 hc.symm)]
    exact ih h.2

theorem removeFirstById_sum (os : List Order) (oid : Nat) (q : Nat)
    (h : findRemById os oid = some q) :
    sumRem (removeFirstById os oid) + q = sumRem os := by
  induction os with
  | nil => simp [findRemById] at h
  | cons o rest ih =>
    simp only [findRemById] at h
    simp only [removeFirstById]
    by_cases h2 : o.id = oid
    · rw [if_pos h2] at h ⊢
      injection h with h3
      simp [sumRem, h3]
      omega
    · rw [if_neg h2] at h ⊢
      have := ih h
      simp only [sumRem, List.map_cons, List.sum_cons] at this ⊢
      omega

theorem removeFirstById_ids_other (os : List Order) (oid x : Nat) (hx : x ≠ oid) :
    x ∈ idsOf (removeFirstById os oid) ↔ x ∈ idsOf os := by
  induction os with
  | nil => simp [removeFirstById]
  | cons o rest ih =>
    simp only [removeFirstById]
    have hcons : idsOf (o :: rest) = o.id :: idsOf rest := rfl
    by_cases h2 : o.id = oid
    · rw [if_pos h2, hcons, List.mem_cons]
      constructor
      · intro h3; right; exact h3
      · intro h3
        rcases h3 with h4 | h4
        · exact absurd (h4.trans h2) hx
        · exact h4
    · rw [if_neg h2]
      have hcons2 : idsOf (o :: removeFirstById rest oid)
          = o.id :: idsOf (removeFirstById rest oid) := rfl
      rw [hcons2, hcons, List.mem_cons, List.mem_cons, ih]

theorem removeFirstById_ids_self (os : List Order) (oid : Nat)
    (hnd : (idsOf os).Nodup) : oid ∉ idsOf (removeFirstById os oid) := by
  induction os with
  | nil => simp [removeFirstById, idsOf]
  | cons o rest ih =>
    have hcons : idsOf (o :: rest) = o.id :: idsOf rest := rfl
    rw [hcons] at hnd
    have hnd1 := (List.nodup_cons.mp hnd).1
    have hnd2 := (List.nodup_cons.mp hnd).2
    simp only [removeFirstById]
    by_cases h2 : o.id = oid
    · rw [if_pos h2]
      rw [← h2]
      exact hnd1
    · rw [if_neg h2]
      have hcons2 : idsOf (o :: removeFirstById rest oid)
          = o.id :: idsOf (removeFirstById rest oid) := rfl
      rw [hcons2, List.mem_cons, not_or]
      exact ⟨fun hc => h2 hc.symm, ih hnd2⟩

theorem cancelInSide_mem (side : List Level) (p oid : Nat) :
    ∀ l2 ∈ cancelInSide side p oid, ∃ l ∈ side, l2.price = l.price ∧
      ∀ x ∈ l2.orders, x ∈ l.orders := by
  induction side with
  | nil => simp [cancelInSide]
  | cons lvl rest ih =>
    simp only [cancelInSide]
    by_cases hpr : lvl.price = p
    · rw [if_pos hpr]
      by_cases hE : (cancelInLevel lvl oid).orders.isEmpty
      · rw [if_pos hE]
        intro l2 h2
        exact ⟨l2, List.mem_cons_of_mem _ h2, rfl, fun x hx => hx⟩
      · rw [if_neg hE]
        intro l2 h2
        rcases List.mem_cons.mp h2 with h | h
        · subst h
          refine ⟨lvl, List.mem_cons_self .., ?_, ?_⟩ <;>
            simp only [cancelInLevel] <;>
            cases hf : findRemById lvl.orders oid
          · rfl
          · rfl
          · simp
          · intro x hx
            simp at hx
            exact (removeFirstById_sublist lvl.orders oid).mem hx
        · exact ⟨l2, List.mem_cons_of_mem _ h, rfl, fun x hx => hx⟩
    · rw [if_neg hpr]
      intro l2 h2
      rcases List.mem_cons.mp h2 with h | h
      · subst h
        exact ⟨l2, List.mem_cons_self .., rfl, fun x hx => hx⟩
      · rcases ih l2 h with ⟨l, hl, h3, h4⟩
        exact ⟨l, List.mem_cons_of_mem _ hl, h3, h4⟩

theorem cancelInLevel_vol (lvl : Level) (oid : Nat)
    (hv : lvl.totalVolume = sumRem lvl.orders) :
    (cancelInLevel lvl oid).totalVolume = sumRem (cancelInLevel lvl oid).orders := by
  simp only [cancelInLevel]
  cases hf : findRemById lvl.orders oid
  · exact hv
  · rename_i q
    have := removeFirstById_sum lvl.orders oid q hf
    simp only []
    omega

theorem cancelInSide_prices_sublist (side : List Level) (p oid : Nat) :
    ((cancelInSide side p oid).map Level.price).Sublist (side.map Level.price) := by
  induction side with
  | nil => simp [cancelInSide]
  | cons lvl rest ih =>
    simp only [cancelInSide]
    by_cases hpr : lvl.price = p
    · rw [if_pos hpr]
      by_cases hE : (cancelInLevel lvl oid).orders.isEmpty
      · rw [if_pos hE]
        exact (List.sublist_cons_self ..).map _
      · rw [if_neg hE]
        have hp2 : (cancelInLevel lvl oid).price = lvl.price := by
          simp only [cancelInLevel]
          cases findRemById lvl.orders oid <;> rfl
        simp only [List.map_cons, hp2]
        exact List.Sublist.refl _
    · rw [if_neg hpr]
      simp only [List.map_cons]
      exact List.Sublist.cons₂ _ ih

theorem cancelInSide_ids_sublist (side : List Level) (p oid : Nat) :
    (sideIds (cancelInSide side p oid)).Sublist (sideIds side) := by
  induction side with
  | nil => simp [cancelInSide]
  | cons lvl rest ih =>
    simp only [cancelInSide]
    by_cases hpr : lvl.price = p
    · rw [if_pos hpr]
      by_cases hE : (cancelInLevel lvl oid).orders.isEmpty
      · rw [if_pos hE]
        rw [sideIds_cons]
        exact List.sublist_append_right ..
      · rw [if_neg hE]
        rw [sideIds_cons, sideIds_cons]
        apply List.Sublist.append _ (List.Sublist.refl _)
        simp only [cancelInLevel]
        cases findRemById lvl.orders oid
        · exact List.Sublist.refl _
        · exact ((removeFirstById_sublist lvl.orders oid).map _)
    · rw [if_neg hpr]
      rw [sideIds_cons, sideIds_cons]
      exact List.Sublist.append (List.Sublist.refl _) ih

theorem cancelInSide_vol (side : List Level) (p oid : Nat)
    (hv : ∀ l ∈ side, l.totalVolume = sumRem l.orders) :
    ∀ l2 ∈ cancelInSide side p oid, l2.totalVolume = sumRem l2.orders := by
  induction side with
  | nil => simp [cancelInSide]
  | cons lvl rest ih =>
    have hvr := fun l hl => hv l (List.mem_cons_of_mem _ hl)
    simp only [cancelInSide]
    by_cases hpr : lvl.price = p
    · rw [if_pos hpr]
      by_cases hE : (cancelInLevel lvl oid).orders.isEmpty
      · rw [if_pos hE]
        exact hvr
      · rw [if_neg hE]
        intro l2 h2
        rcases List.mem_cons.mp h2 with h | h
        · subst h
          exact cancelInLevel_vol lvl oid (hv lvl (List.mem_cons_self ..))
        · exact hvr l2 h
    · rw [if_neg hpr]
      intro l2 h2
      rcases List.mem_cons.mp h2 with h | h
      · subst h
        exact hv l2 (List.mem_cons_self ..)
      · exact ih hvr l2 h

theorem cancelInSide_nonempty (side : List Level) (p oid : Nat)
    (hv : ∀ l ∈ side, l.orders ≠ []) :
    ∀ l2 ∈ cancelInSide side p oid, l2.orders ≠ [] := by
  induction side with
  | nil => simp [cancelInSide]
  | cons lvl rest ih =>
    have hvr := fun l hl => hv l (List.mem_cons_of_mem _ hl)
    simp only [cancelInSide]
    by_cases hpr : lvl.price = p
    · rw [if_pos hpr]
      by_cases hE : (cancelInLevel lvl oid).orders.isEmpty
      · rw [if_pos hE]
        exact hvr
      · rw [if_neg hE]
        intro l2 h2
        rcases List.mem_cons.mp h2 with h | h
        · subst h
          intro hc
          rw [List.isEmpty_iff.symm] at hc
          exact hE hc
        · exact hvr l2 h
    · rw [if_neg hpr]
      intro l2 h2
      rcases List.mem_cons.mp h2 with h | h
      · subst h
        exact hv l2 (List.mem_cons_self ..)
      · exact ih hvr l2 h

theorem cancelInSide_ids_other (side : List Level) (p oid x : Nat) (hx : x ≠ oid) :
    x ∈ sideIds (cancelInSide side p oid) ↔ x ∈ sideIds side := by
  induction side with
  | nil => simp [cancelInSide]
  | cons lvl rest ih =>
    simp only [cancelInSide]
    by_cases hpr : lvl.price = p
    · rw [if_pos hpr]
      by_cases hE : (cancelInLevel lvl oid).orders.isEmpty
      · rw [if_pos hE]
        rw [sideIds_cons, List.mem_append]
        constructor
        · intro h; right; exact h
        · intro h
          rcases h with h | h
          · exfalso
            have hor : (cancelInLevel lvl oid).orders = [] := List.isEmpty_iff.mp hE
            simp only [cancelInLevel] at hor
            cases hf : findRemById lvl.orders oid
            · rw [hf] at hor
              rw [hor] at h
              simp [idsOf] at h
            · rw [hf] at hor
              simp only [] at hor
              have := (removeFirstById_ids_other lvl.orders oid x hx).mpr h
              rw [hor] at this
              simp [idsOf] at this
          · exact h
      · rw [if_neg hE]
        rw [sideIds_cons, sideIds_cons, List.mem_append, List.mem_append]
        have hiff : x ∈ idsOf (cancelInLevel lvl oid).orders ↔ x ∈ idsOf lvl.orders := by
          simp only [cancelInLevel]
          cases hf : findRemById lvl.orders oid
          · exact Iff.rfl
          · exact removeFirstById_ids_other lvl.orders oid x hx
        rw [hiff]
    · rw [if_neg hpr]
      rw [sideIds_cons, sideIds_cons, List.mem_append, List.mem_append, ih]

theorem cancelInSide_ids_self (side : List Level) (p oid : Nat)
    (hnd : (sideIds side).Nodup) (hpnd : (side.map Level.price).Nodup)
    (l : Level) (hl : l ∈ side) (hp : l.price = p) (ho : oid ∈ idsOf l.orders) :
    oid ∉ sideIds (cancelInSide side p oid) := by
  induction side with
  | nil => simp at hl
  | cons lvl rest ih =>
    rw [sideIds_cons] at hnd
    have hndl := (List.nodup_append.mp hnd).1
    have hndr := (List.nodup_append.mp hnd).2.1
    have hdis := (List.nodup_append.mp hnd).2.2
    rw [List.map_cons] at hpnd
    have hpnd1 := (List.nodup_cons.mp hpnd).1
    have hpnd2 := (List.nodup_cons.mp hpnd).2
    simp only [cancelInSide]
    by_cases hpr : lvl.price = p
    · rw [if_pos hpr]
      have hol : oid ∈ idsOf lvl.orders := by
        rcases List.mem_cons.mp hl with h | h
        · subst h; exact ho
        · exfalso
          apply hpnd1
          rw [hpr, ← hp]
          exact List.mem_map.mpr ⟨l, h, rfl⟩
      have honr : oid ∉ sideIds rest := fun hc => hdis hol hc
      have hno : oid ∉ idsOf (cancelInLevel lvl oid).orders := by
        simp only [cancelInLevel]
        rcases findRemById_isSome_of_mem lvl.orders oid hol with ⟨q, hq⟩
        rw [hq]
        exact removeFirstById_ids_self lvl.orders oid hndl
      by_cases hE : (cancelInLevel lvl oid).orders.isEmpty
      · rw [if_pos hE]
        exact honr
      · rw [if_neg hE]
        rw [sideIds_cons, List.mem_append, not_or]
        exact ⟨hno, honr⟩
    · rw [if_neg hpr]
      have hlr : l ∈ rest := by
        rcases List.mem_cons.mp hl with h | h
        · exfalso; subst h; exact hpr hp
        · exact h
      have honl : oid ∉ idsOf lvl.orders := by
        intro hc
        exact hdis hc (mem_sideIds.mpr ⟨l, hlr, ho⟩)
      rw [sideIds_cons, List.mem_append, not_or]
      exact ⟨honl, ih hndr hpnd2 hlr⟩

theorem cancelInSide_located (side : List Level) (p oid : Nat) :
    ∀ l ∈ side, ∀ x ∈ idsOf l.orders, x ≠ oid →
      ∃ l2 ∈ cancelInSide side p oid, l2.price = l.price ∧ x ∈ idsOf l2.orders := by
  induction side with
  | nil => simp [cancelInSide]
  | cons lvl rest ih =>
    simp only [cancelInSide]
    by_cases hpr : lvl.price = p
    · rw [if_pos hpr]
      intro l hl x hx hxo
      by_cases hE : (cancelInLevel lvl oid).orders.isEmpty
      · rw [if_pos hE]
        rcases List.mem_cons.mp hl with h | h
        · exfalso
          subst h
          cases hf : findRemById l.orders oid
          · have hor : l.orders = [] := by
              have h2 : (cancelInLevel l oid).orders = [] := List.isEmpty_iff.mp hE
              simp only [cancelInLevel, hf] at h2
              exact h2
            rw [hor] at hx
            simp [idsOf] at hx
          · have hor : removeFirstById l.orders oid = [] := by
              have h2 : (cancelInLevel l oid).orders = [] := List.isEmpty_iff.mp hE
              simp only [cancelInLevel, hf] at h2
              exact h2
            have hxm := (removeFirstById_ids_other l.orders oid x hxo).mpr hx
            rw [hor] at hxm
            simp [idsOf] at hxm
        · exact ⟨l, h, rfl, hx⟩
      · rw [if_neg hE]
        rcases List.mem_cons.mp hl with h | h
        · subst h
          refine ⟨cancelInLevel l oid, List.mem_cons_self .., ?_, ?_⟩
          · simp only [cancelInLevel]
            cases findRemById l.orders oid <;> rfl
          · simp only [cancelInLevel]
            cases hf : findRemById l.orders oid
            · exact hx
            · exact (removeFirstById_ids_other l.orders oid x hxo).mpr hx
        · exact ⟨l, List.mem_cons_of_mem _ h, rfl, hx⟩
    · rw [if_neg hpr]
      intro l hl x hx hxo
      rcases List.mem_cons.mp hl with h | h
      · subst h
        exact ⟨l, List.mem_cons_self .., rfl, hx⟩
      · rcases ih l h x hx hxo with ⟨l2, hl2, h3, h4⟩
        exact ⟨l2, List.mem_cons_of_mem _ hl2, h3, h4⟩

/-! The inductive invariant of the book. -/

structure WF (b : OrderBook) : Prop where
  bidsSorted : List.Pairwise (fun l1 l2 : Level => l2.price < l1.price) b.bids
  asksSorted : List.Pairwise (fun l1 l2 : Level => l1.price < l2.price) b.asks
  bidsVol : ∀ l ∈ b.bids, l.totalVolume = sumRem l.orders
  asksVol : ∀ l ∈ b.asks, l.totalVolume = sumRem l.orders
  bidsNE : ∀ l ∈ b.bids, l.orders ≠ []
  asksNE : ∀ l ∈ b.asks, l.orders ≠ []
  bidsPos : ∀ l ∈ b.bids, ∀ x ∈ l.orders, 0 < x.remainingQuantity
  asksPos : ∀ l ∈ b.asks, ∀ x ∈ l.orders, 0 < x.remainingQuantity
  nodupIds : (allIds b).Nodup
  accB : ∀ x loc, b.orderLookup x = some loc → loc.side = Side.Buy →
    ∃ l ∈ b.bids, l.price = loc.price ∧ x ∈ idsOf l.orders
  accS : ∀ x loc, b.orderLookup x = some loc → loc.side = Side.Sell →
    ∃ l ∈ b.asks, l.price = loc.price ∧ x ∈ idsOf l.orders
  compB : ∀ l ∈ b.bids, ∀ x ∈ l.orders, b.orderLookup x.id = some ⟨Side.Buy, l.price⟩
  compS : ∀ l ∈ b.asks, ∀ x ∈ l.orders, b.orderLookup x.id = some ⟨Side.Sell, l.price⟩
  uncrossed : ∀ lb ∈ b.bids, ∀ la ∈ b.asks, lb.price < la.price

theorem mem_idsOf {x : Nat} {os : List Order} : x ∈ idsOf os ↔ ∃ y ∈ os, y.id = x := by
  simp [idsOf]

theorem pricePairwise_of_sublist (R : Nat → Nat → Prop) (s1 s2 : List Level)
    (hsub : (s1.map Level.price).Sublist (s2.map Level.price))
    (hp : List.Pairwise (fun a b : Level => R a.price b.price) s2) :
    List.Pairwise (fun a b : Level => R a.price b.price) s1 := by
  rw [← List.pairwise_map] at hp ⊢
  exact hp.sublist hsub

theorem price_mem_of_sublist (s1 s2 : List Level) (la : Level)
    (hla : la ∈ s1) (hsub : (s1.map Level.price).Sublist (s2.map Level.price)) :
    ∃ l0 ∈ s2, l0.price = la.price := by
  have h1 : la.price ∈ s1.map Level.price := List.mem_map.mpr ⟨la, hla, rfl⟩
  have h2 : la.price ∈ s2.map Level.price := hsub.mem h1
  rcases List.mem_map.mp h2 with ⟨l0, hl0, hpr⟩
  exact ⟨l0, hl0, hpr⟩

theorem matchAgainstBook_lookup_cases (o : Order) (side : List Level) (lk : Lookup)
    (hnd : (sideIds side).Nodup) (x : Nat) :
    ((matchAgainstBook o side lk).lookup x = lk x ∧
      (x ∈ sideIds side → x ∈ sideIds (matchAgainstBook o side lk).levels)) ∨
    (matchAgainstBook o side lk).lookup x = none := by
  by_cases h1 : x ∈ sideIds side
  · by_cases h2 : x ∈ sideIds (matchAgainstBook o side lk).levels
    · left
      exact ⟨matchAgainstBook_lookup_kept o side lk hnd x h2, fun _ => h2⟩
    · right
      exact matchAgainstBook_lookup_gone o side lk hnd x h1 h2
  · left
    exact ⟨matchAgainstBook_lookup_outside o side lk x h1, fun hc => absurd hc h1⟩

theorem not_resting_of_lookup_none_bids (b : OrderBook) (h : WF b) (x : Nat)
    (hn : b.orderLookup x = none) : x ∉ sideIds b.bids := by
  intro hc
  rcases mem_sideIds.mp hc with ⟨l, hl, hx⟩
  rcases mem_idsOf.mp hx with ⟨y, hy, hyid⟩
  have := h.compB l hl y hy
  rw [hyid, hn] at this
  exact Option.noConfusion this

theorem not_resting_of_lookup_none_asks (b : OrderBook) (h : WF b) (x : Nat)
    (hn : b.orderLookup x = none) : x ∉ sideIds b.asks := by
  intro hc
  rcases mem_sideIds.mp hc with ⟨l, hl, hx⟩
  rcases mem_idsOf.mp hx with ⟨y, hy, hyid⟩
  have := h.compS l hl y hy
  rw [hyid, hn] at this
  exact Option.noConfusion this

theorem not_isFilled_pos (o : Order) (h : o.isFilled = false) :
    0 < o.remainingQuantity := by
  simp only [Order.isFilled, beq_eq_false_iff_ne, ne_eq] at h
  omega

theorem addOrder_fst_buy (b : OrderBook) (o : Order) (hnone : b.orderLookup o.id = none)
    (hs : o.side = Side.Buy) :
    (addOrder b o).1 =
      if (matchAgainstBook o b.asks b.orderLookup).incoming.isFilled then
        { bids := b.bids, asks := (matchAgainstBook o b.asks b.orderLookup).levels,
          orderLookup := (matchAgainstBook o b.asks b.orderLookup).lookup }
      else
        { bids := insertIntoSide bidsBefore
            (matchAgainstBook o b.asks b.orderLookup).incoming b.bids,
          asks := (matchAgainstBook o b.asks b.orderLookup).levels,
          orderLookup := insertLookup (matchAgainstBook o b.asks b.orderLookup).lookup
            (matchAgainstBook o b.asks b.orderLookup).incoming.id
            ⟨(matchAgainstBook o b.asks b.orderLookup).incoming.side,
             (matchAgainstBook o b.asks b.orderLookup).incoming.price⟩ } := by
  simp only [addOrder, hnone, Option.isSome_none, Bool.false_eq_true, if_false, hs, addToBook]
  split <;> rfl

theorem addOrder_fst_sell (b : OrderBook) (o : Order) (hnone : b.orderLookup o.id = none)
    (hs : o.side = Side.Sell) :
    (addOrder b o).1 =
      if (matchAgainstBook o b.bids b.orderLookup).incoming.isFilled then
        { bids := (matchAgainstBook o b.bids b.orderLookup).levels, asks := b.asks,
          orderLookup := (matchAgainstBook o b.bids b.orderLookup).lookup }
      else
        { bids := (matchAgainstBook o b.bids b.orderLookup).levels,
          asks := insertIntoSide asksBefore
            (matchAgainstBook o b.bids b.orderLookup).incoming b.asks,
          orderLookup := insertLookup (matchAgainstBook o b.bids b.orderLookup).lookup
            (matchAgainstBook o b.bids b.orderLookup).incoming.id
            ⟨(matchAgainstBook o b.bids b.orderLookup).incoming.side,
             (matchAgainstBook o b.bids b.orderLookup).incoming.price⟩ } := by
  simp only [addOrder, hnone, Option.isSome_none, Bool.false_eq_true, if_false, hs, addToBook]
  split <;> rfl

theorem WF_addOrder_buy (b : OrderBook) (o : Order) (h : WF b)
    (hnone : b.orderLookup o.id = none) (hs : o.side = Side.Buy) :
    WF (addOrder b o).1 := by
  have hndA : (sideIds b.bids).Nodup := (List.nodup_append.mp h.nodupIds).1
  have hndS : (sideIds b.asks).Nodup := (List.nodup_append.mp h.nodupIds).2.1
  have hdisj := (List.nodup_append.mp h.nodupIds).2.2
  rw [addOrder_fst_buy b o hnone hs]
  have hvol := matchAgainstBook_vol o b.asks b.orderLookup h.asksVol
  have hne := matchAgainstBook_nonempty o b.asks b.orderLookup h.asksNE
  have hpos := matchAgainstBook_pos o b.asks b.orderLookup h.asksPos
  have hprices := matchAgainstBook_prices_sublist o b.asks b.orderLookup
  have hsorted : List.Pairwise (fun l1 l2 : Level => l1.price < l2.price)
      (matchAgainstBook o b.asks b.orderLookup).levels :=
    pricePairwise_of_sublist _ _ _ hprices h.asksSorted
  have hidsub := matchAgainstBook_ids_sublist o b.asks b.orderLookup
  have hndS2 : (sideIds (matchAgainstBook o b.asks b.orderLookup).levels).Nodup :=
    hndS.sublist hidsub
  have hcasesLk := matchAgainstBook_lookup_cases o b.asks b.orderLookup hndS
  have haccS2 : ∀ x loc, (matchAgainstBook o b.asks b.orderLookup).lookup x = some loc →
      loc.side = Side.Sell →
      ∃ l ∈ (matchAgainstBook o b.asks b.orderLookup).levels,
        l.price = loc.price ∧ x ∈ idsOf l.orders := by
    intro x loc hx hside
    rcases hcasesLk x with ⟨heq, himp⟩ | hn2
    · rw [heq] at hx
      rcases h.accS x loc hx hside with ⟨l, hl, hpr, hxl⟩
      have hxs : x ∈ sideIds b.asks := mem_sideIds.mpr ⟨l, hl, hxl⟩
      rcases matchAgainstBook_located o b.asks b.orderLookup hndS l hl x hxl (himp hxs)
        with ⟨l2, hl2, hpr2, hxl2⟩
      exact ⟨l2, hl2, hpr2.trans hpr, hxl2⟩
    · rw [hn2] at hx
      exact Option.noConfusion hx
  have haccB2 : ∀ x loc, (matchAgainstBook o b.asks b.orderLookup).lookup x = some loc →
      loc.side = Side.Buy →
      ∃ l ∈ b.bids, l.price = loc.price ∧ x ∈ idsOf l.orders := by
    intro x loc hx hside
    rcases hcasesLk x with ⟨heq, _⟩ | hn2
    · rw [heq] at hx
      exact h.accB x loc hx hside
    · rw [hn2] at hx
      exact Option.noConfusion hx
  have hcompB2 : ∀ l ∈ b.bids, ∀ x ∈ l.orders,
      (matchAgainstBook o b.asks b.orderLookup).lookup x.id = some ⟨Side.Buy, l.price⟩ := by
    intro l hl x hx
    have hxb : x.id ∈ sideIds b.bids := mem_sideIds.mpr ⟨l, hl, mem_idsOf.mpr ⟨x, hx, rfl⟩⟩
    have hxa : x.id ∉ sideIds b.asks := fun hc => hdisj hxb hc
    rw [matchAgainstBook_lookup_outside o b.asks b.orderLookup x.id hxa]
    exact h.compB l hl x hx
  have hcompS2 : ∀ l2 ∈ (matchAgainstBook o b.asks b.orderLookup).levels, ∀ x ∈ l2.orders,
      (matchAgainstBook o b.asks b.orderLookup).lookup x.id = some ⟨Side.Sell, l2.price⟩ := by
    intro l2 hl2 x hx
    have hxin : x.id ∈ sideIds (matchAgainstBook o b.asks b.orderLookup).levels :=
      mem_sideIds.mpr ⟨l2, hl2, mem_idsOf.mpr ⟨x, hx, rfl⟩⟩
    rw [matchAgainstBook_lookup_kept o b.asks b.orderLookup hndS x.id hxin]
    rcases matchAgainstBook_levels_mem o b.asks b.orderLookup l2 hl2 with ⟨l, hl, hpr, hord⟩
    rcases hord x hx with ⟨y, hy, hid, _, _, _⟩
    rw [hid, h.compS l hl y hy, hpr]
  have huncross2 : ∀ lb ∈ b.bids, ∀ la ∈ (matchAgainstBook o b.asks b.orderLookup).levels,
      lb.price < la.price := by
    intro lb hlb la hla
    rcases price_mem_of_sublist _ _ la hla hprices with ⟨la0, hla0, hpr⟩
    rw [← hpr]
    exact h.uncrossed lb hlb la0 hla0
  have hnodup2 : (sideIds b.bids
      ++ sideIds (matchAgainstBook o b.asks b.orderLookup).levels).Nodup := by
    rw [List.nodup_append]
    exact ⟨hndA, hndS2, fun x hx1 hx2 => hdisj hx1 (hidsub.mem hx2)⟩
  by_cases hfill : (matchAgainstBook o b.asks b.orderLookup).incoming.isFilled
  · rw [if_pos hfill]
    exact ⟨h.bidsSorted, hsorted, h.bidsVol, hvol, h.bidsNE, hne, h.bidsPos, hpos,
      hnodup2, haccB2, haccS2, hcompB2, hcompS2, huncross2⟩
  · rw [if_neg hfill]
    have hfill2 : (matchAgainstBook o b.asks b.orderLookup).incoming.isFilled = false :=
      Bool.eq_false_iff.mpr hfill
    have hinc := matchAgainstBook_inc_fields o b.asks b.orderLookup
    have hincpos := not_isFilled_pos _ hfill2
    have hoidb : o.id ∉ sideIds b.bids := not_resting_of_lookup_none_bids b h o.id hnone
    have hoida : o.id ∉ sideIds b.asks := not_resting_of_lookup_none_asks b h o.id hnone
    have hincid : (matchAgainstBook o b.asks b.orderLookup).incoming.id = o.id := hinc.1
    have hincside : (matchAgainstBook o b.asks b.orderLookup).incoming.side = Side.Buy :=
      hinc.2.1.trans hs
    have hincpr : (matchAgainstBook o b.asks b.orderLookup).incoming.price = o.price :=
      hinc.2.2
    refine ⟨?_, hsorted, ?_, hvol, ?_, hne, ?_, hpos, ?_, ?_, ?_, ?_, ?_, ?_⟩
    · exact insertIntoSide_sorted_bids _ _ h.bidsSorted
    · exact insertIntoSide_vol _ _ _ h.bidsVol
    · exact insertIntoSide_nonempty _ _ _ h.bidsNE
    · exact insertIntoSide_pos _ _ _ h.bidsPos hincpos
    · -- no duplicate ids
      have hperm := insertIntoSide_ids_perm bidsBefore
        (matchAgainstBook o b.asks b.orderLookup).incoming b.bids
      rw [hincid] at hperm
      have hp2 := hperm.append_right
        (sideIds (matchAgainstBook o b.asks b.orderLookup).levels)
      have htarget : ((o.id :: sideIds b.bids)
          ++ sideIds (matchAgainstBook o b.asks b.orderLookup).levels).Nodup := by
        rw [List.cons_append, List.nodup_cons]
        refine ⟨?_, hnodup2⟩
        rw [List.mem_append, not_or]
        exact ⟨hoidb, fun hc => hoida (hidsub.mem hc)⟩
      exact hp2.symm.nodup htarget
    · -- accuracy on the buy side
      intro x loc hx hside
      by_cases hxid : x = (matchAgainstBook o b.asks b.orderLookup).incoming.id
      · have hloc : loc = ⟨(matchAgainstBook o b.asks b.orderLookup).incoming.side,
            (matchAgainstBook o b.asks b.orderLookup).incoming.price⟩ := by
          have hx2 : insertLookup (matchAgainstBook o b.asks b.orderLookup).lookup
              (matchAgainstBook o b.asks b.orderLookup).incoming.id
              ⟨(matchAgainstBook o b.asks b.orderLookup).incoming.side,
               (matchAgainstBook o b.asks b.orderLookup).incoming.price⟩ x = some loc := hx
          rw [insertLookup, if_pos hxid] at hx2
          exact (Option.some.injEq ..).mp hx2.symm
        rcases insertIntoSide_self bidsBefore
            (matchAgainstBook o b.asks b.orderLookup).incoming b.bids
          with ⟨l2, hl2, hpr2, hmem2⟩
        refine ⟨l2, hl2, ?_, ?_⟩
        · rw [hloc, hpr2]
        · rw [hxid]
          exact mem_idsOf.mpr ⟨_, hmem2, rfl⟩
      · have hx2 : (matchAgainstBook o b.asks b.orderLookup).lookup x = some loc := by
          have hx3 : insertLookup (matchAgainstBook o b.asks b.orderLookup).lookup
              (matchAgainstBook o b.asks b.orderLookup).incoming.id
              ⟨(matchAgainstBook o b.asks b.orderLookup).incoming.side,
               (matchAgainstBook o b.asks b.orderLookup).incoming.price⟩ x = some loc := hx
          rw [insertLookup, if_neg hxid] at hx3
          exact hx3
        rcases haccB2 x loc hx2 hside with ⟨l, hl, hpr, hxl⟩
        rcases insertIntoSide_located bidsBefore
            (matchAgainstBook o b.asks b.orderLookup).incoming b.bids l hl
          with ⟨l2, hl2, hpr2, hsub2⟩
        refine ⟨l2, hl2, hpr2.trans hpr, ?_⟩
        rcases mem_idsOf.mp hxl with ⟨y, hy, hyid⟩
        exact mem_idsOf.mpr ⟨y, hsub2 y hy, hyid⟩
    · -- accuracy on the sell side
      intro x loc hx hside
      by_cases hxid : x = (matchAgainstBook o b.asks b.orderLookup).incoming.id
      · exfalso
        have hloc : loc = ⟨(matchAgainstBook o b.asks b.orderLookup).incoming.side,
            (matchAgainstBook o b.asks b.orderLookup).incoming.price⟩ := by
          have hx2 : insertLookup (matchAgainstBook o b.asks b.orderLookup).lookup
              (matchAgainstBook o b.asks b.orderLookup).incoming.id
              ⟨(matchAgainstBook o b.asks b.orderLookup).incoming.side,
               (matchAgainstBook o b.asks b.orderLookup).incoming.price⟩ x = some loc := hx
          rw [insertLookup, if_pos hxid] at hx2
          exact (Option.some.injEq ..).mp hx2.symm
        rw [hloc] at hside
        simp only [] at hside
        rw [hincside] at hside
        exact Side.noConfusion hside
      · have hx2 : (matchAgainstBook o b.asks b.orderLookup).lookup x = some loc := by
          have hx3 : insertLookup (matchAgainstBook o b.asks b.orderLookup).lookup
              (matchAgainstBook o b.asks b.orderLookup).incoming.id
              ⟨(matchAgainstBook o b.asks b.orderLookup).incoming.side,
               (matchAgainstBook o b.asks b.orderLookup).incoming.price⟩ x = some loc := hx
          rw [insertLookup, if_neg hxid] at hx3
          exact hx3
        exact haccS2 x loc hx2 hside
    · -- completeness on the buy side
      intro l2 hl2 x hx
      have hins : ∀ z : Order, z.id ∈ sideIds b.bids →
          insertLookup (matchAgainstBook o b.asks b.orderLookup).lookup
            (matchAgainstBook o b.asks b.orderLookup).incoming.id
            ⟨(matchAgainstBook o b.asks b.orderLookup).incoming.side,
             (matchAgainstBook o b.asks b.orderLookup).incoming.price⟩ z.id
            = b.orderLookup z.id := by
        intro z hz
        have hzne : ¬ z.id = (matchAgainstBook o b.asks b.orderLookup).incoming.id := by
          rw [hincid]
          intro hc
          exact hoidb (hc ▸ hz)
        rw [insertLookup, if_neg hzne]
        have hza : z.id ∉ sideIds b.asks := fun hc => hdisj hz hc
        exact matchAgainstBook_lookup_outside o b.asks b.orderLookup z.id hza
      have hinsinc :
          insertLookup (matchAgainstBook o b.asks b.orderLookup).lookup
            (matchAgainstBook o b.asks b.orderLookup).incoming.id
            ⟨(matchAgainstBook o b.asks b.orderLookup).incoming.side,
             (matchAgainstBook o b.asks b.orderLookup).incoming.price⟩
            (matchAgainstBook o b.asks b.orderLookup).incoming.id
            = some ⟨Side.Buy, (matchAgainstBook o b.asks b.orderLookup).incoming.price⟩ := by
        rw [insertLookup, if_pos rfl, hincside]
      rcases insertIntoSide_mem bidsBefore
          (matchAgainstBook o b.asks b.orderLookup).incoming b.bids l2 hl2
        with hc | hc | ⟨l, hl, hpr, hceq⟩
      · have hxb : x.id ∈ sideIds b.bids :=
          mem_sideIds.mpr ⟨l2, hc, mem_idsOf.mpr ⟨x, hx, rfl⟩⟩
        exact (hins x hxb).trans (h.compB l2 hc x hx)
      · subst hc
        rcases List.mem_singleton.mp hx with h5
        subst h5
        exact hinsinc
      · subst hceq
        rcases List.mem_append.mp hx with h5 | h5
        · have hxb : x.id ∈ sideIds b.bids :=
            mem_sideIds.mpr ⟨l, hl, mem_idsOf.mpr ⟨x, h5, rfl⟩⟩
          exact (hins x hxb).trans (h.compB l hl x h5)
        · rcases List.mem_singleton.mp h5 with h6
          subst h6
          exact hinsinc.trans (by rw [hpr])
    · -- completeness on the sell side
      intro l2 hl2 x hx
      have hxa : x.id ∈ sideIds (matchAgainstBook o b.asks b.orderLookup).levels :=
        mem_sideIds.mpr ⟨l2, hl2, mem_idsOf.mpr ⟨x, hx, rfl⟩⟩
      have hxne : ¬ x.id = (matchAgainstBook o b.asks b.orderLookup).incoming.id := by
        rw [hincid]
        intro hc
        exact hoida (hidsub.mem (hc ▸ hxa))
      have hstep : insertLookup (matchAgainstBook o b.asks b.orderLookup).lookup
          (matchAgainstBook o b.asks b.orderLookup).incoming.id
          ⟨(matchAgainstBook o b.asks b.orderLookup).incoming.side,
           (matchAgainstBook o b.asks b.orderLookup).incoming.price⟩ x.id
          = (matchAgainstBook o b.asks b.orderLookup).lookup x.id := by
        rw [insertLookup, if_neg hxne]
      exact hstep.trans (hcompS2 l2 hl2 x hx)
    · -- uncrossed
      intro lb hlb la hla
      rcases insertIntoSide_prices bidsBefore
          (matchAgainstBook o b.asks b.orderLookup).incoming b.bids lb hlb with hc | hc
      · obtain ⟨hd, tl, hhd⟩ :
            ∃ hd tl, (matchAgainstBook o b.asks b.orderLookup).levels = hd :: tl := by
          cases hlv : (matchAgainstBook o b.asks b.orderLookup).levels
          · rw [hlv] at hla
            simp at hla
          · exact ⟨_, _, rfl⟩
        have hstop := matchAgainstBook_stop o b.asks b.orderLookup hfill2 hd tl hhd
        have hlt : o.price < hd.price := by
          rw [priceMatch_ext o ⟨o.id, Side.Buy, o.price, o.initialQuantity,
            o.remainingQuantity⟩ hd.price hs rfl] at hstop
          simp only [priceMatch, decide_eq_false_iff_not, not_le] at hstop
          exact hstop
        have hle : hd.price ≤ la.price := by
          rw [hhd] at hla hsorted
          rcases List.mem_cons.mp hla with hc2 | hc2
          · rw [hc2]
          · exact le_of_lt ((List.pairwise_cons.mp hsorted).1 la hc2)
        rw [hc, hincpr]
        omega
      · rcases List.mem_map.mp hc with ⟨lb0, hlb0, hpr0⟩
        rw [← hpr0]
        exact huncross2 lb0 hlb0 la hla

theorem WF_addOrder_sell (b : OrderBook) (o : Order) (h : WF b)
    (hnone : b.orderLookup o.id = none) (hs : o.side = Side.Sell) :
    WF (addOrder b o).1 := by
  have hndA : (sideIds b.bids).Nodup := (List.nodup_append.mp h.nodupIds).1
  have hndS : (sideIds b.asks).Nodup := (List.nodup_append.mp h.nodupIds).2.1
  have hdisj := (List.nodup_append.mp h.nodupIds).2.2
  rw [addOrder_fst_sell b o hnone hs]
  have hvol := matchAgainstBook_vol o b.bids b.orderLookup h.bidsVol
  have hne := matchAgainstBook_nonempty o b.bids b.orderLookup h.bidsNE
  have hpos := matchAgainstBook_pos o b.bids b.orderLookup h.bidsPos
  have hprices := matchAgainstBook_prices_sublist o b.bids b.orderLookup
  have hsorted : List.Pairwise (fun l1 l2 : Level => l2.price < l1.price)
      (matchAgainstBook o b.bids b.orderLookup).levels :=
    pricePairwise_of_sublist (fun p q => q < p) _ _ hprices h.bidsSorted
  have hidsub := matchAgainstBook_ids_sublist o b.bids b.orderLookup
  have hndA2 : (sideIds (matchAgainstBook o b.bids b.orderLookup).levels).Nodup :=
    hndA.sublist hidsub
  have hcasesLk := matchAgainstBook_lookup_cases o b.bids b.orderLookup hndA
  have haccB2 : ∀ x loc, (matchAgainstBook o b.bids b.orderLookup).lookup x = some loc →
      loc.side = Side.Buy →
      ∃ l ∈ (matchAgainstBook o b.bids b.orderLookup).levels,
        l.price = loc.price ∧ x ∈ idsOf l.orders := by
    intro x loc hx hside
    rcases hcasesLk x with ⟨heq, himp⟩ | hn2
    · rw [heq] at hx
      rcases h.accB x loc hx hside with ⟨l, hl, hpr, hxl⟩
      have hxs : x ∈ sideIds b.bids := mem_sideIds.mpr ⟨l, hl, hxl⟩
      rcases matchAgainstBook_located o b.bids b.orderLookup hndA l hl x hxl (himp hxs)
        with ⟨l2, hl2, hpr2, hxl2⟩
      exact ⟨l2, hl2, hpr2.trans hpr, hxl2⟩
    · rw [hn2] at hx
      exact Option.noConfusion hx
  have haccS2 : ∀ x loc, (matchAgainstBook o b.bids b.orderLookup).lookup x = some loc →
      loc.side = Side.Sell →
      ∃ l ∈ b.asks, l.price = loc.price ∧ x ∈ idsOf l.orders := by
    intro x loc hx hside
    rcases hcasesLk x with ⟨heq, _⟩ | hn2
    · rw [heq] at hx
      exact h.accS x loc hx hside
    · rw [hn2] at hx
      exact Option.noConfusion hx
  have hcompS2 : ∀ l ∈ b.asks, ∀ x ∈ l.orders,
      (matchAgainstBook o b.bids b.orderLookup).lookup x.id = some ⟨Side.Sell, l.price⟩ := by
    intro l hl x hx
    have hxa : x.id ∈ sideIds b.asks := mem_sideIds.mpr ⟨l, hl, mem_idsOf.mpr ⟨x, hx, rfl⟩⟩
    have hxb : x.id ∉ sideIds b.bids := fun hc => hdisj hc hxa
    rw [matchAgainstBook_lookup_outside o b.bids b.orderLookup x.id hxb]
    exact h.compS l hl x hx
  have hcompB2 : ∀ l2 ∈ (matchAgainstBook o b.bids b.orderLookup).levels, ∀ x ∈ l2.orders,
      (matchAgainstBook o b.bids b.orderLookup).lookup x.id = some ⟨Side.Buy, l2.price⟩ := by
    intro l2 hl2 x hx
    have hxin : x.id ∈ sideIds (matchAgainstBook o b.bids b.orderLookup).levels :=
      mem_sideIds.mpr ⟨l2, hl2, mem_idsOf.mpr ⟨x, hx, rfl⟩⟩
    rw [matchAgainstBook_lookup_kept o b.bids b.orderLookup hndA x.id hxin]
    rcases matchAgainstBook_levels_mem o b.bids b.orderLookup l2 hl2 with ⟨l, hl, hpr, hord⟩
    rcases hord x hx with ⟨y, hy, hid, _, _, _⟩
    rw [hid, h.compB l hl y hy, hpr]
  have huncross2 : ∀ lb ∈ (matchAgainstBook o b.bids b.orderLookup).levels, ∀ la ∈ b.asks,
      lb.price < la.price := by
    intro lb hlb la hla
    rcases price_mem_of_sublist _ _ lb hlb hprices with ⟨lb0, hlb0, hpr⟩
    rw [← hpr]
    exact h.uncrossed lb0 hlb0 la hla
  have hnodup2 : (sideIds (matchAgainstBook o b.bids b.orderLookup).levels
      ++ sideIds b.asks).Nodup := by
    rw [List.nodup_append]
    exact ⟨hndA2, hndS, fun x hx1 hx2 => hdisj (hidsub.mem hx1) hx2⟩
  by_cases hfill : (matchAgainstBook o b.bids b.orderLookup).incoming.isFilled
  · rw [if_pos hfill]
    exact ⟨hsorted, h.asksSorted, hvol, h.asksVol, hne, h.asksNE, hpos, h.asksPos,
      hnodup2, haccB2, haccS2, hcompB2, hcompS2, huncross2⟩
  · rw [if_neg hfill]
    have hfill2 : (matchAgainstBook o b.bids b.orderLookup).incoming.isFilled = false :=
      Bool.eq_false_iff.mpr hfill
    have hinc := matchAgainstBook_inc_fields o b.bids b.orderLookup
    have hincpos := not_isFilled_pos _ hfill2
    have hoidb : o.id ∉ sideIds b.bids := not_resting_of_lookup_none_bids b h o.id hnone
    have hoida : o.id ∉ sideIds b.asks := not_resting_of_lookup_none_asks b h o.id hnone
    have hincid : (matchAgainstBook o b.bids b.orderLookup).incoming.id = o.id := hinc.1
    have hincside : (matchAgainstBook o b.bids b.orderLookup).incoming.side = Side.Sell :=
      hinc.2.1.trans hs
    have hincpr : (matchAgainstBook o b.bids b.orderLookup).incoming.price = o.price :=
      hinc.2.2
    refine ⟨hsorted, ?_, hvol, ?_, hne, ?_, hpos, ?_, ?_, ?_, ?_, ?_, ?_, ?_⟩
    · exact insertIntoSide_sorted_asks _ _ h.asksSorted
    · exact insertIntoSide_vol _ _ _ h.asksVol
    · exact insertIntoSide_nonempty _ _ _ h.asksNE
    · exact insertIntoSide_pos _ _ _ h.asksPos hincpos
    · have hperm := insertIntoSide_ids_perm asksBefore
        (matchAgainstBook o b.bids b.orderLookup).incoming b.asks
      rw [hincid] at hperm
      have hp2 := hperm.append_left (sideIds (matchAgainstBook o b.bids b.orderLookup).levels)
      have htarget : (sideIds (matchAgainstBook o b.bids b.orderLookup).levels
          ++ (o.id :: sideIds b.asks)).Nodup := by
        have hmid : (o.id :: (sideIds (matchAgainstBook o b.bids b.orderLookup).levels
            ++ sideIds b.asks)).Nodup := by
          rw [List.nodup_cons]
          refine ⟨?_, hnodup2⟩
          rw [List.mem_append, not_or]
          exact ⟨fun hc => hoidb (hidsub.mem hc), hoida⟩
        exact (@List.perm_middle _ o.id
          (sideIds (matchAgainstBook o b.bids b.orderLookup).levels)
          (sideIds b.asks)).symm.nodup hmid
      exact hp2.symm.nodup htarget
    · -- accuracy on the buy side
      intro x loc hx hside
      by_cases hxid : x = (matchAgainstBook o b.bids b.orderLookup).incoming.id
      · exfalso
        have hloc : loc = ⟨(matchAgainstBook o b.bids b.orderLookup).incoming.side,
            (matchAgainstBook o b.bids b.orderLookup).incoming.price⟩ := by
          have hx2 : insertLookup (matchAgainstBook o b.bids b.orderLookup).lookup
              (matchAgainstBook o b.bids b.orderLookup).incoming.id
              ⟨(matchAgainstBook o b.bids b.orderLookup).incoming.side,
               (matchAgainstBook o b.bids b.orderLookup).incoming.price⟩ x = some loc := hx
          rw [insertLookup, if_pos hxid] at hx2
          exact (Option.some.injEq ..).mp hx2.symm
        rw [hloc] at hside
        simp only [] at hside
        rw [hincside] at hside
        exact Side.noConfusion hside
      · have hx2 : (matchAgainstBook o b.bids b.orderLookup).lookup x = some loc := by
          have hx3 : insertLookup (matchAgainstBook o b.bids b.orderLookup).lookup
              (matchAgainstBook o b.bids b.orderLookup).incoming.id
              ⟨(matchAgainstBook o b.bids b.orderLookup).incoming.side,
               (matchAgainstBook o b.bids b.orderLookup).incoming.price⟩ x = some loc := hx
          rw [insertLookup, if_neg hxid] at hx3
          exact hx3
        exact haccB2 x loc hx2 hside
    · -- accuracy on the sell side
      intro x loc hx hside
      by_cases hxid : x = (matchAgainstBook o b.bids b.orderLookup).incoming.id
      · have hloc : loc = ⟨(matchAgainstBook o b.bids b.orderLookup).incoming.side,
            (matchAgainstBook o b.bids b.orderLookup).incoming.price⟩ := by
          have hx2 : insertLookup (matchAgainstBook o b.bids b.orderLookup).lookup
              (matchAgainstBook o b.bids b.orderLookup).incoming.id
              ⟨(matchAgainstBook o b.bids b.orderLookup).incoming.side,
               (matchAgainstBook o b.bids b.orderLookup).incoming.price⟩ x = some loc := hx
          rw [insertLookup, if_pos hxid] at hx2
          exact (Option.some.injEq ..).mp hx2.symm
        rcases insertIntoSide_self asksBefore
            (matchAgainstBook o b.bids b.orderLookup).incoming b.asks
          with ⟨l2, hl2, hpr2, hmem2⟩
        refine ⟨l2, hl2, ?_, ?_⟩
        · rw [hloc, hpr2]
        · rw [hxid]
          exact mem_idsOf.mpr ⟨_, hmem2, rfl⟩
      · have hx2 : (matchAgainstBook o b.bids b.orderLookup).lookup x = some loc := by
          have hx3 : insertLookup (matchAgainstBook o b.bids b.orderLookup).lookup
              (matchAgainstBook o b.bids b.orderLookup).incoming.id
              ⟨(matchAgainstBook o b.bids b.orderLookup).incoming.side,
               (matchAgainstBook o b.bids b.orderLookup).incoming.price⟩ x = some loc := hx
          rw [insertLookup, if_neg hxid] at hx3
          exact hx3
        rcases haccS2 x loc hx2 hside with ⟨l, hl, hpr, hxl⟩
        rcases insertIntoSide_located asksBefore
            (matchAgainstBook o b.bids b.orderLookup).incoming b.asks l hl
          with ⟨l2, hl2, hpr2, hsub2⟩
        refine ⟨l2, hl2, hpr2.trans hpr, ?_⟩
        rcases mem_idsOf.mp hxl with ⟨y, hy, hyid⟩
        exact mem_idsOf.mpr ⟨y, hsub2 y hy, hyid⟩
    · -- completeness on the buy side
      intro l2 hl2 x hx
      have hxb : x.id ∈ sideIds (matchAgainstBook o b.bids b.orderLookup).levels :=
        mem_sideIds.mpr ⟨l2, hl2, mem_idsOf.mpr ⟨x, hx, rfl⟩⟩
      have hxne : ¬ x.id = (matchAgainstBook o b.bids b.orderLookup).incoming.id := by
        rw [hincid]
        intro hc
        exact hoidb (hidsub.mem (hc ▸ hxb))
      have hstep : insertLookup (matchAgainstBook o b.bids b.orderLookup).lookup
          (matchAgainstBook o b.bids b.orderLookup).incoming.id
          ⟨(matchAgainstBook o b.bids b.orderLookup).incoming.side,
           (matchAgainstBook o b.bids b.orderLookup).incoming.price⟩ x.id
          = (matchAgainstBook o b.bids b.orderLookup).lookup x.id := by
        rw [insertLookup, if_neg hxne]
      exact hstep.trans (hcompB2 l2 hl2 x hx)
    · -- completeness on the sell side
      intro l2 hl2 x hx
      have hins : ∀ z : Order, z.id ∈ sideIds b.asks →
          insertLookup (matchAgainstBook o b.bids b.orderLookup).lookup
            (matchAgainstBook o b.bids b.orderLookup).incoming.id
            ⟨(matchAgainstBook o b.bids b.orderLookup).incoming.side,
             (matchAgainstBook o b.bids b.orderLookup).incoming.price⟩ z.id
            = b.orderLookup z.id := by
        intro z hz
        have hzne : ¬ z.id = (matchAgainstBook o b.bids b.orderLookup).incoming.id := by
          rw [hincid]
          intro hc
          exact hoida (hc ▸ hz)
        rw [insertLookup, if_neg hzne]
        have hzb : z.id ∉ sideIds b.bids := fun hc => hdisj hc hz
        exact matchAgainstBook_lookup_outside o b.bids b.orderLookup z.id hzb
      have hinsinc :
          insertLookup (matchAgainstBook o b.bids b.orderLookup).lookup
            (matchAgainstBook o b.bids b.orderLookup).incoming.id
            ⟨(matchAgainstBook o b.bids b.orderLookup).incoming.side,
             (matchAgainstBook o b.bids b.orderLookup).incoming.price⟩
            (matchAgainstBook o b.bids b.orderLookup).incoming.id
            = some ⟨Side.Sell, (matchAgainstBook o b.bids b.orderLookup).incoming.price⟩ := by
        rw [insertLookup, if_pos rfl, hincside]
      rcases insertIntoSide_mem asksBefore
          (matchAgainstBook o b.bids b.orderLookup).incoming b.asks l2 hl2
        with hc | hc | ⟨l, hl, hpr, hceq⟩
      · have hxa : x.id ∈ sideIds b.asks :=
          mem_sideIds.mpr ⟨l2, hc, mem_idsOf.mpr ⟨x, hx, rfl⟩⟩
        exact (hins x hxa).trans (h.compS l2 hc x hx)
      · subst hc
        rcases List.mem_singleton.mp hx with h5
        subst h5
        exact hinsinc
      · subst hceq
        rcases List.mem_append.mp hx with h5 | h5
        · have hxa : x.id ∈ sideIds b.asks :=
            mem_sideIds.mpr ⟨l, hl, mem_idsOf.mpr ⟨x, h5, rfl⟩⟩
          exact (hins x hxa).trans (h.compS l hl x h5)
        · rcases List.mem_singleton.mp h5 with h6
          subst h6
          exact hinsinc.trans (by rw [hpr])
    · -- uncrossed
      intro lb hlb la hla
      rcases insertIntoSide_prices asksBefore
          (matchAgainstBook o b.bids b.orderLookup).incoming b.asks la hla with hc | hc
      · obtain ⟨hd, tl, hhd⟩ :
            ∃ hd tl, (matchAgainstBook o b.bids b.orderLookup).levels = hd :: tl := by
          cases hlv : (matchAgainstBook o b.bids b.orderLookup).levels
          · rw [hlv] at hlb
            simp at hlb
          · exact ⟨_, _, rfl⟩
        have hstop := matchAgainstBook_stop o b.bids b.orderLookup hfill2 hd tl hhd
        have hlt : hd.price < o.price := by
          rw [priceMatch_ext o ⟨o.id, Side.Sell, o.price, o.initialQuantity,
            o.remainingQuantity⟩ hd.price hs rfl] at hstop
          simp only [priceMatch, decide_eq_false_iff_not, not_le] at hstop
          exact hstop
        have hle : lb.price ≤ hd.price := by
          rw [hhd] at hlb hsorted
          rcases List.mem_cons.mp hlb with hc2 | hc2
          · rw [hc2]
          · exact le_of_lt ((List.pairwise_cons.mp hsorted).1 lb hc2)
        rw [hc, hincpr]
        omega
      · rcases List.mem_map.mp hc with ⟨la0, hla0, hpr0⟩
        rw [← hpr0]
        exact huncross2 lb hlb la0 hla0

theorem cancelOrder_fst_none (b : OrderBook) (oid : Nat)
    (hlk : b.orderLookup oid = none) : (cancelOrder b oid).1 = b := by
  simp [cancelOrder, hlk]

theorem cancelOrder_snd_none (b : OrderBook) (oid : Nat)
    (hlk : b.orderLookup oid = none) : (cancelOrder b oid).2 = false := by
  simp [cancelOrder, hlk]

theorem cancelOrder_fst_buy (b : OrderBook) (oid : Nat) (loc : OrderLocation)
    (hlk : b.orderLookup oid = some loc) (hside : loc.side = Side.Buy) :
    (cancelOrder b oid).1 =
      { bids := cancelInSide b.bids loc.price oid, asks := b.asks,
        orderLookup := eraseLookup b.orderLookup oid } := by
  simp [cancelOrder, hlk, hside]

theorem cancelOrder_fst_sell (b : OrderBook) (oid : Nat) (loc : OrderLocation)
    (hlk : b.orderLookup oid = some loc) (hside : loc.side = Side.Sell) :
    (cancelOrder b oid).1 =
      { bids := b.bids, asks := cancelInSide b.asks loc.price oid,
        orderLookup := eraseLookup b.orderLookup oid } := by
  simp [cancelOrder, hlk, hside]

theorem eraseLookup_some (lk : Lookup) (oid x : Nat) (loc : OrderLocation)
    (h : eraseLookup lk oid x = some loc) : x ≠ oid ∧ lk x = some loc := by
  by_cases hx : x = oid
  · rw [eraseLookup, if_pos hx] at h
    exact Option.noConfusion h
  · rw [eraseLookup, if_neg hx] at h
    exact ⟨hx, h⟩

theorem eraseLookup_ne (lk : Lookup) (oid x : Nat) (hx : ¬ x = oid) :
    eraseLookup lk oid x = lk x := by
  rw [eraseLookup, if_neg hx]

theorem WF_cancelOrder (b : OrderBook) (oid : Nat) (h : WF b) :
    WF (cancelOrder b oid).1 := by
  cases hlk : b.orderLookup oid with
  | none =>
    rw [cancelOrder_fst_none b oid hlk]
    exact h
  | some loc =>
    have hndA : (sideIds b.bids).Nodup := (List.nodup_append.mp h.nodupIds).1
    have hndS : (sideIds b.asks).Nodup := (List.nodup_append.mp h.nodupIds).2.1
    have hdisj := (List.nodup_append.mp h.nodupIds).2.2
    have hpndB : (b.bids.map Level.price).Nodup :=
      List.pairwise_map.mpr (h.bidsSorted.imp fun hlt => ne_of_gt hlt)
    have hpndS : (b.asks.map Level.price).Nodup :=
      List.pairwise_map.mpr (h.asksSorted.imp fun hlt => ne_of_lt hlt)
    cases hside : loc.side with
    | Buy =>
      rcases h.accB oid loc hlk hside with ⟨l, hl, hlpr, hoidl⟩
      have hoidb : oid ∈ sideIds b.bids := mem_sideIds.mpr ⟨l, hl, hoidl⟩
      have hoidna : oid ∉ sideIds b.asks := fun hc => hdisj hoidb hc
      have hgone : oid ∉ sideIds (cancelInSide b.bids loc.price oid) :=
        cancelInSide_ids_self b.bids loc.price oid hndA hpndB l hl hlpr hoidl
      have hsubids := cancelInSide_ids_sublist b.bids loc.price oid
      have hsubpr := cancelInSide_prices_sublist b.bids loc.price oid
      rw [cancelOrder_fst_buy b oid loc hlk hside]
      refine ⟨?_, h.asksSorted, ?_, h.asksVol, ?_, h.asksNE, ?_, h.asksPos,
        ?_, ?_, ?_, ?_, ?_, ?_⟩
      · exact pricePairwise_of_sublist (fun p q => q < p) _ _ hsubpr h.bidsSorted
      · exact cancelInSide_vol b.bids loc.price oid h.bidsVol
      · exact cancelInSide_nonempty b.bids loc.price oid h.bidsNE
      · intro l2 h2 x hx
        rcases cancelInSide_mem b.bids loc.price oid l2 h2 with ⟨l0, hl0, _, hsub0⟩
        exact h.bidsPos l0 hl0 x (hsub0 x hx)
      · exact h.nodupIds.sublist (List.Sublist.append hsubids (List.Sublist.refl _))
      · intro x loc2 hx hside2
        rcases eraseLookup_some _ _ _ _ hx with ⟨hxo, hx2⟩
        rcases h.accB x loc2 hx2 hside2 with ⟨l3, hl3, hpr3, hxl3⟩
        rcases cancelInSide_located b.bids loc.price oid l3 hl3 x hxl3 hxo
          with ⟨l2, hl2, hpr2, hxl2⟩
        exact ⟨l2, hl2, hpr2.trans hpr3, hxl2⟩
      · intro x loc2 hx hside2
        rcases eraseLookup_some _ _ _ _ hx with ⟨hxo, hx2⟩
        exact h.accS x loc2 hx2 hside2
      · intro l2 h2 x hx
        have hxid : ¬ x.id = oid := by
          intro hc
          have hmem : x.id ∈ sideIds (cancelInSide b.bids loc.price oid) :=
            mem_sideIds.mpr ⟨l2, h2, mem_idsOf.mpr ⟨x, hx, rfl⟩⟩
          rw [hc] at hmem
          exact hgone hmem
        rcases cancelInSide_mem b.bids loc.price oid l2 h2 with ⟨l0, hl0, hpr0, hsub0⟩
        refine (eraseLookup_ne _ _ _ hxid).trans ?_
        rw [h.compB l0 hl0 x (hsub0 x hx), hpr0]
      · intro l2 h2 x hx
        have hxid : ¬ x.id = oid := by
          intro hc
          have hmem : x.id ∈ sideIds b.asks :=
            mem_sideIds.mpr ⟨l2, h2, mem_idsOf.mpr ⟨x, hx, rfl⟩⟩
          rw [hc] at hmem
          exact hoidna hmem
        exact (eraseLookup_ne _ _ _ hxid).trans (h.compS l2 h2 x hx)
      · intro lb hlb la hla
        rcases price_mem_of_sublist _ _ lb hlb hsubpr with ⟨lb0, hlb0, hpr0⟩
        rw [← hpr0]
        exact h.uncrossed lb0 hlb0 la hla
    | Sell =>
      rcases h.accS oid loc hlk hside with ⟨l, hl, hlpr, hoidl⟩
      have hoida : oid ∈ sideIds b.asks := mem_sideIds.mpr ⟨l, hl, hoidl⟩
      have hoidnb : oid ∉ sideIds b.bids := fun hc => hdisj hc hoida
      have hgone : oid ∉ sideIds (cancelInSide b.asks loc.price oid) :=
        cancelInSide_ids_self b.asks loc.price oid hndS hpndS l hl hlpr hoidl
      have hsubids := cancelInSide_ids_sublist b.asks loc.price oid
      have hsubpr := cancelInSide_prices_sublist b.asks loc.price oid
      rw [cancelOrder_fst_sell b oid loc hlk hside]
      refine ⟨h.bidsSorted, ?_, h.bidsVol, ?_, h.bidsNE, ?_, h.bidsPos, ?_,
        ?_, ?_, ?_, ?_, ?_, ?_⟩
      · exact pricePairwise_of_sublist (fun p q => p < q) _ _ hsubpr h.asksSorted
      · exact cancelInSide_vol b.asks loc.price oid h.asksVol
      · exact cancelInSide_nonempty b.asks loc.price oid h.asksNE
      · intro l2 h2 x hx
        rcases cancelInSide_mem b.asks loc.price oid l2 h2 with ⟨l0, hl0, _, hsub0⟩
        exact h.asksPos l0 hl0 x (hsub0 x hx)
      · exact h.nodupIds.sublist (List.Sublist.append (List.Sublist.refl _) hsubids)
      · intro x loc2 hx hside2
        rcases eraseLookup_some _ _ _ _ hx with ⟨hxo, hx2⟩
        exact h.accB x loc2 hx2 hside2
      · intro x loc2 hx hside2
        rcases eraseLookup_some _ _ _ _ hx with ⟨hxo, hx2⟩
        rcases h.accS x loc2 hx2 hside2 with ⟨l3, hl3, hpr3, hxl3⟩
        rcases cancelInSide_located b.asks loc.price oid l3 hl3 x hxl3 hxo
          with ⟨l2, hl2, hpr2, hxl2⟩
        exact ⟨l2, hl2, hpr2.trans hpr3, hxl2⟩
      · intro l2 h2 x hx
        have hxid : ¬ x.id = oid := by
          intro hc
          have hmem : x.id ∈ sideIds b.bids :=
            mem_sideIds.mpr ⟨l2, h2, mem_idsOf.mpr ⟨x, hx, rfl⟩⟩
          rw [hc] at hmem
          exact hoidnb hmem
        exact (eraseLookup_ne _ _ _ hxid).trans (h.compB l2 h2 x hx)
      · intro l2 h2 x hx
        have hxid : ¬ x.id = oid := by
          intro hc
          have hmem : x.id ∈ sideIds (cancelInSide b.asks loc.price oid) :=
            mem_sideIds.mpr ⟨l2, h2, mem_idsOf.mpr ⟨x, hx, rfl⟩⟩
          rw [hc] at hmem
          exact hgone hmem
        rcases cancelInSide_mem b.asks loc.price oid l2 h2 with ⟨l0, hl0, hpr0, hsub0⟩
        refine (eraseLookup_ne _ _ _ hxid).trans ?_
        rw [h.compS l0 hl0 x (hsub0 x hx), hpr0]
      · intro lb hlb la hla
        rcases price_mem_of_sublist _ _ la hla hsubpr with ⟨la0, hla0, hpr0⟩
        rw [← hpr0]
        exact h.uncrossed lb hlb la0 hla0

theorem WF_emptyBook : WF emptyBook := by
  refine ⟨?_, ?_, ?_, ?_, ?_, ?_, ?_, ?_, ?_, ?_, ?_, ?_, ?_, ?_⟩ <;>
    simp [emptyBook, emptyLookup, allIds, sideIds]

theorem WF_addOrder (b : OrderBook) (o : Order) (h : WF b) : WF (addOrder b o).1 := by
  by_cases hdup : (b.orderLookup o.id).isSome
  · rw [addOrder_dup b o hdup]
    exact h
  · have hnone : b.orderLookup o.id = none := Option.not_isSome_iff_eq_none.mp hdup
    cases hs : o.side
    · exact WF_addOrder_buy b o h hnone hs
    · exact WF_addOrder_sell b o h hnone hs

theorem WF_of_reachable (b : OrderBook) (h : Reachable b) : WF b := by
  induction h with
  | empty => exact WF_emptyBook
  | add b2 o hr ih => exact WF_addOrder b2 o ih
  | cancel b2 oid hr ih => exact WF_cancelOrder b2 oid ih

/-- C1: uncrossed book after add.  For every book reachable from the empty
    book by addOrder and cancelOrder operations, after any further addOrder
    returns, every bid level price is strictly below every ask level price;
    in particular, when both sides are non-empty the highest bid is
    strictly less than the lowest ask. -/
theorem uncrossed_after_add (b : OrderBook) (o : Order) (h : Reachable b) :
    ∀ lb ∈ (addOrder b o).1.bids, ∀ la ∈ (addOrder b o).1.asks, lb.price < la.price :=
  (WF_of_reachable _ (Reachable.add b o h)).uncrossed

theorem uncrossed_after_add_witness :
    (⟨100, 10, [mkOrder 1 Side.Buy 100 10]⟩ : Level).price
      < (⟨101, 5, [mkOrder 2 Side.Sell 101 5]⟩ : Level).price :=
  uncrossed_after_add (addOrder emptyBook (mkOrder 1 Side.Buy 100 10)).1
    (mkOrder 2 Side.Sell 101 5) (Reachable.add _ _ Reachable.empty)
    ⟨100, 10, [mkOrder 1 Side.Buy 100 10]⟩ (by decide)
    ⟨101, 5, [mkOrder 2 Side.Sell 101 5]⟩ (by decide)

/-- C6: book-state invariants.  For every reachable book state, every level
    satisfies totalVolume equal to the sum of remaining quantities of its
    FIFO, no level FIFO is empty, no resting order has remaining quantity
    zero, and the key set of the order index equals the set of ids of all
    resting orders. -/
theorem reachable_invariants (b : OrderBook) (h : Reachable b) :
    (∀ l ∈ b.bids, l.totalVolume = sumRem l.orders) ∧
    (∀ l ∈ b.asks, l.totalVolume = sumRem l.orders) ∧
    (∀ l ∈ b.bids, l.orders ≠ []) ∧
    (∀ l ∈ b.asks, l.orders ≠ []) ∧
    (∀ l ∈ b.bids, ∀ x ∈ l.orders, 0 < x.remainingQuantity) ∧
    (∀ l ∈ b.asks, ∀ x ∈ l.orders, 0 < x.remainingQuantity) ∧
    (∀ x, (b.orderLookup x).isSome = true ↔ x ∈ allIds b) := by
  have hw := WF_of_reachable b h
  refine ⟨hw.bidsVol, hw.asksVol, hw.bidsNE, hw.asksNE, hw.bidsPos, hw.asksPos, ?_⟩
  intro x
  constructor
  · intro hx
    cases hlk : b.orderLookup x with
    | none =>
      rw [hlk] at hx
      simp at hx
    | some loc =>
      show x ∈ sideIds b.bids ++ sideIds b.asks
      cases hside : loc.side
      · rcases hw.accB x loc hlk hside with ⟨l, hl, _, hxl⟩
        exact List.mem_append.mpr (Or.inl (mem_sideIds.mpr ⟨l, hl, hxl⟩))
      · rcases hw.accS x loc hlk hside with ⟨l, hl, _, hxl⟩
        exact List.mem_append.mpr (Or.inr (mem_sideIds.mpr ⟨l, hl, hxl⟩))
  · intro hx
    have hx2 : x ∈ sideIds b.bids ++ sideIds b.asks := hx
    rcases List.mem_append.mp hx2 with hc | hc
    · rcases mem_sideIds.mp hc with ⟨l, hl, hxl⟩
      rcases mem_idsOf.mp hxl with ⟨y, hy, hyid⟩
      have hcomp := hw.compB l hl y hy
      rw [hyid] at hcomp
      rw [hcomp]
      rfl
    · rcases mem_sideIds.mp hc with ⟨l, hl, hxl⟩
      rcases mem_idsOf.mp hxl with ⟨y, hy, hyid⟩
      have hcomp := hw.compS l hl y hy
      rw [hyid] at hcomp
      rw [hcomp]
      rfl

theorem reachable_invariants_witness :
    ((addOrder emptyBook (mkOrder 1 Side.Buy 100 5)).1.orderLookup 1).isSome = true ↔
      1 ∈ allIds (addOrder emptyBook (mkOrder 1 Side.Buy 100 5)).1 :=
  (reachable_invariants (addOrder emptyBook (mkOrder 1 Side.Buy 100 5)).1
    (Reachable.add _ _ Reachable.empty)).2.2.2.2.2.2 1

/-- C5: cancel semantics.  cancelOrder returns true exactly when the id is a
    key of the order index; on false the book is wholly unchanged; after a
    successful cancel a second cancel of the same id returns false and
    changes nothing; and on a reachable book a successful cancel removes
    the order, so its id no longer appears among the resting orders. -/
theorem cancel_semantics (b : OrderBook) (oid : Nat) :
    ((cancelOrder b oid).2 = true ↔ (b.orderLookup oid).isSome = true) ∧
    ((cancelOrder b oid).2 = false → (cancelOrder b oid).1 = b) ∧
    ((cancelOrder b oid).2 = true →
      (cancelOrder (cancelOrder b oid).1 oid).2 = false ∧
      (cancelOrder (cancelOrder b oid).1 oid).1 = (cancelOrder b oid).1) ∧
    (Reachable b → (cancelOrder b oid).2 = true →
      oid ∉ allIds (cancelOrder b oid).1) := by
  refine ⟨?_, ?_, ?_, ?_⟩
  · cases hlk : b.orderLookup oid with
    | none => simp [cancelOrder, hlk]
    | some loc => simp [cancelOrder, hlk]
  · cases hlk : b.orderLookup oid with
    | none =>
      intro h2
      exact cancelOrder_fst_none b oid hlk
    | some loc =>
      intro h2
      exfalso
      have ht : (cancelOrder b oid).2 = true := by simp [cancelOrder, hlk]
      rw [h2] at ht
      exact Bool.noConfusion ht
  · intro h2
    have hlk2 : (cancelOrder b oid).1.orderLookup oid = none := by
      cases hlk : b.orderLookup oid with
      | none =>
        exfalso
        have hf : (cancelOrder b oid).2 = false := by simp [cancelOrder, hlk]
        rw [h2] at hf
        exact Bool.noConfusion hf
      | some loc =>
        cases hside : loc.side
        · rw [cancelOrder_fst_buy b oid loc hlk hside]
          show eraseLookup b.orderLookup oid oid = none
          simp [eraseLookup]
        · rw [cancelOrder_fst_sell b oid loc hlk hside]
          show eraseLookup b.orderLookup oid oid = none
          simp [eraseLookup]
    exact ⟨cancelOrder_snd_none _ _ hlk2, cancelOrder_fst_none _ _ hlk2⟩
  · intro hreach h2
    have hw := WF_of_reachable b hreach
    have hndA : (sideIds b.bids).Nodup := (List.nodup_append.mp hw.nodupIds).1
    have hndS : (sideIds b.asks).Nodup := (List.nodup_append.mp hw.nodupIds).2.1
    have hdisj := (List.nodup_append.mp hw.nodupIds).2.2
    have hpndB : (b.bids.map Level.price).Nodup :=
      List.pairwise_map.mpr (hw.bidsSorted.imp fun hlt => ne_of_gt hlt)
    have hpndS : (b.asks.map Level.price).Nodup :=
      List.pairwise_map.mpr (hw.asksSorted.imp fun hlt => ne_of_lt hlt)
    cases hlk : b.orderLookup oid with
    | none =>
      exfalso
      have hf : (cancelOrder b oid).2 = false := by simp [cancelOrder, hlk]
      rw [h2] at hf
      exact Bool.noConfusion hf
    | some loc =>
      cases hside : loc.side with
      | Buy =>
        rcases hw.accB oid loc hlk hside with ⟨l, hl, hlpr, hoidl⟩
        have hgone : oid ∉ sideIds (cancelInSide b.bids loc.price oid) :=
          cancelInSide_ids_self b.bids loc.price oid hndA hpndB l hl hlpr hoidl
        have hoidna : oid ∉ sideIds b.asks :=
          fun hc => hdisj (mem_sideIds.mpr ⟨l, hl, hoidl⟩) hc
        rw [cancelOrder_fst_buy b oid loc hlk hside]
        intro hc
        have hc2 : oid ∈ sideIds (cancelInSide b.bids loc.price oid)
            ++ sideIds b.asks := hc
        rcases List.mem_append.mp hc2 with hd | hd
        · exact hgone hd
        · exact hoidna hd
      | Sell =>
        rcases hw.accS oid loc hlk hside with ⟨l, hl, hlpr, hoidl⟩
        have hgone : oid ∉ sideIds (cancelInSide b.asks loc.price oid) :=
          cancelInSide_ids_self b.asks loc.price oid hndS hpndS l hl hlpr hoidl
        have hoidnb : oid ∉ sideIds b.bids :=
          fun hc => hdisj hc (mem_sideIds.mpr ⟨l, hl, hoidl⟩)
        rw [cancelOrder_fst_sell b oid loc hlk hside]
        intro hc
        have hc2 : oid ∈ sideIds b.bids
            ++ sideIds (cancelInSide b.asks loc.price oid) := hc
        rcases List.mem_append.mp hc2 with hd | hd
        · exact hoidnb hd
        · exact hgone hd

theorem cancel_semantics_witness :
    (cancelOrder (cancelOrder (addOrder emptyBook (mkOrder 1 Side.Buy 100 5)).1 1).1 1).2
        = false ∧
    (cancelOrder (cancelOrder (addOrder emptyBook (mkOrder 1 Side.Buy 100 5)).1 1).1 1).1
        = (cancelOrder (addOrder emptyBook (mkOrder 1 Side.Buy 100 5)).1 1).1 :=
  (cancel_semantics (addOrder emptyBook (mkOrder 1 Side.Buy 100 5)).1 1).2.2.1 (by decide)
